import Mathlib

/-!
Verification of the orchestration core of a neural dependency-parser
training/inference engine (`parser/base_network.py`).

The development shallowly embeds:
* `BaseNetwork.__init__` — vocabulary-registry resolution across composed
  frozen input sub-models;
* `BaseNetwork.train` — the training control loop (smoothed-accuracy
  tracking, checkpoint gating, optimizer switching, termination, the
  SUCCESS / scores.txt side effects, and the caught external interrupt);
* `BaseNetwork.parse`, `parse_file`, `parse_files` — the batched inference
  pipeline, modelled as an event trace (caches, directory creation, output
  writes) together with the runtime errors the Python code raises.

Python floats are modelled by `ℚ` (the update constants 0.75/0.25 and the
comparisons the claims concern are exact at the inputs considered);
Python object identity of vocabulary instances is modelled by giving each
instance an object id (`vid`), so identity is decidable equality on the
pair (classname, vid).
-/

namespace ParserV3

instance {ε α : Type} [DecidableEq ε] [DecidableEq α] : DecidableEq (Except ε α) := fun x y =>
  match x, y with
  | .ok a, .ok b =>
    if h : a = b then .isTrue (by rw [h]) else .isFalse (fun hh => h (Except.ok.injEq .. ▸ hh))
  | .error a, .error b =>
    if h : a = b then .isTrue (by rw [h]) else .isFalse (fun hh => h (Except.error.injEq .. ▸ hh))
  | .ok _, .error _ => .isFalse (fun hh => Except.noConfusion hh)
  | .error _, .ok _ => .isFalse (fun hh => Except.noConfusion hh)

/-! ## Vocabulary registry (`BaseNetwork.__init__`, lines 47-108) -/

/-- A vocabulary instance: a class name plus an object id standing for
Python object identity (`vocab is other` ↔ structural equality here). -/
structure Vocab where
  classname : String
  vid : ℕ
deriving DecidableEq, Repr

/-- A frozen input sub-model: its class name and the vocabularies it owns. -/
structure InputNetwork where
  classname : String
  vocabs : List Vocab
deriving DecidableEq, Repr

/-- The configuration keys consumed by `BaseNetwork.__init__`. -/
structure NetConfig where
  inputNetworkClasses : List String
  inputVocabClasses : List String
  outputVocabClasses : List String
  throughputVocabClasses : List String
deriving DecidableEq, Repr

/-- Construction-time failures of `BaseNetwork.__init__`: the assertion on
line 55 (declared vs. supplied sub-model classes) and the assertion on
line 62 (two sub-models holding different instances of one vocab class). -/
inductive NetError
  | configurationError
  | consistencyError
deriving DecidableEq, Repr

/-- The `extant_vocabs` dict: an insertion-ordered association list from
class names to vocab instances. -/
abbrev Extant := List (String × Vocab)

/-- Dictionary lookup on `extant_vocabs`. -/
def lookupE : Extant → String → Option Vocab
  | [], _ => none
  | (k, v) :: es, c => if c = k then some v else lookupE es c

/-- The loop over all input networks' vocabs (lines 58-64): each vocab is
checked against `extant_vocabs`; a same-class entry must be the identical
instance, otherwise the line-62 assertion fires. -/
def collectExtant : List Vocab → Extant → Except NetError Extant
  | [], ext => .ok ext
  | v :: vs, ext =>
    match lookupE ext v.classname with
    | some w => if w = v then collectExtant vs ext else .error .consistencyError
    | none => collectExtant vs (ext ++ [(v.classname, v)])

/-- Python `set.add`: adds the element unless an equal one is present. -/
def setInsert (v : Vocab) (l : List Vocab) : List Vocab :=
  if v ∈ l then l else l ++ [v]

/-- Lines 66-70: reuse a sub-model's `IDIndexVocab` if present, else
create a fresh instance and register it. -/
def stageId (ext : Extant) (fresh : ℕ) : Vocab × Extant × ℕ :=
  match lookupE ext "IDIndexVocab" with
  | some w => (w, ext, fresh)
  | none => (⟨"IDIndexVocab", fresh⟩, ext ++ [("IDIndexVocab", ⟨"IDIndexVocab", fresh⟩)], fresh + 1)

/-- One of the three class-resolution loops (lines 72-81, 83-92, 94-103):
for each class name, reuse the registered instance if present, else create
a fresh instance (populated externally by `load()` or `count(...)`) and
register it.  `acc` is the Python set being built by the loop. -/
def resolveClasses (ext : Extant) (fresh : ℕ) : List String → List Vocab → List Vocab × Extant × ℕ
  | [], acc => (acc, ext, fresh)
  | c :: cs, acc =>
    match lookupE ext c with
    | some w => resolveClasses ext fresh cs (setInsert w acc)
    | none =>
      let v : Vocab := ⟨c, fresh⟩
      resolveClasses (ext ++ [(c, v)]) (fresh + 1) cs (setInsert v acc)

/-- The vocabulary-related outcome of `BaseNetwork.__init__`. -/
structure InitResult where
  idVocab : Vocab
  inputVocabs : List Vocab
  outputVocabs : List Vocab
  throughputVocabs : List Vocab
  vocabs : List Vocab
deriving DecidableEq, Repr

/-- Lines 66-103 of `BaseNetwork.__init__`: the id-vocab stage followed by
the three class-resolution loops, starting from the registry `ext0` built
out of the sub-models' vocabularies.  Note that the throughput loop of the
source (line 95) iterates `self.output_vocab_classes`, not
`self.throughput_vocab_classes`; the embedding reproduces this. -/
def initResolve (cfg : NetConfig) (ext0 : Extant) (fresh : ℕ) : InitResult :=
  let s1 := stageId ext0 fresh
  let s2 := resolveClasses s1.2.1 s1.2.2 cfg.inputVocabClasses []
  let s3 := resolveClasses s2.2.1 s2.2.2 cfg.outputVocabClasses []
  let s4 := resolveClasses s3.2.1 s3.2.2 cfg.outputVocabClasses []
  { idVocab := s1.1, inputVocabs := s2.1, outputVocabs := s3.1,
    throughputVocabs := s4.1, vocabs := s4.2.1.map (·.2) }

/-- The constructor `BaseNetwork.__init__` (lines 47-108). -/
def initNetwork (cfg : NetConfig) (nets : List InputNetwork) (fresh : ℕ) :
    Except NetError InitResult :=
  if (nets.map (·.classname)).toFinset ≠ cfg.inputNetworkClasses.toFinset then
    .error .configurationError
  else
    match collectExtant (nets.flatMap (·.vocabs)) [] with
    | .error e => .error e
    | .ok ext0 => .ok (initResolve cfg ext0 fresh)

/-- Well-formedness of the `extant_vocabs` registry: every entry is keyed
by its vocab's class name, and keys are not duplicated (it models a
dict). -/
def extWF (ext : Extant) : Prop :=
  (∀ p ∈ ext, p.2.classname = p.1) ∧ (ext.map Prod.fst).Nodup

/-- All vocabulary instances reachable in one model composition: the
model's own registry values, its four vocab sets, and every sub-model's
vocabularies. -/
def compositionVocabs (nets : List InputNetwork) (r : InitResult) : List Vocab :=
  r.vocabs ++ r.inputVocabs ++ r.outputVocabs ++ r.throughputVocabs ++
    [r.idVocab] ++ nets.flatMap (·.vocabs)

/-! ## Training loop (`BaseNetwork.train`, lines 111-285)

The loop is embedded as a state-transition function.  External
collaborators are parameters: `a t` is the aggregated development-set
accuracy produced by the `t`-th evaluation sweep
(`dev_outputs.get_current_accuracy()`), `epochSize` is the number of
batches yielded by one pass of `trainset.shuffled_batch_iterator()`, and
`intr = some k` means a `KeyboardInterrupt` arrives just before the
training step that would follow the first `k` executed steps.  Besides the
program variables of `run` (lines 175-277) the state carries observation
records of every evaluation tick and of every outer-pass optimizer check,
so that the claims can be stated about complete runs. -/

/-- The two update strategies of the dual-optimizer scheduler. -/
inductive Opt
  | adam
  | amsgrad
deriving DecidableEq, Repr

/-- Rank used to state that the optimizer never switches back. -/
def optRank : Opt → ℕ
  | .adam => 0
  | .amsgrad => 1

/-- The configuration keys consumed by `BaseNetwork.train`. -/
structure TrainConfig where
  maxSteps : ℕ
  maxStepsWithoutImprovement : ℕ
  printEvery : ℕ
  switchOptimizers : Bool
  saveModel : Bool
deriving DecidableEq, Repr

/-- Observation record of one evaluation tick (lines 225-242): the values
read and written by the tick's smoothing/improvement logic. -/
structure TickRec where
  idx : ℕ
  stepNo : ℕ
  epochIdx : ℕ
  optim : Opt
  raw : ℚ
  curBefore : ℚ
  smoothed : ℚ
  bestBefore : ℚ
  bestAfter : ℚ
  sinceBefore : ℕ
  sinceAfter : ℕ
  improved : Bool
  saved : Bool
deriving DecidableEq, Repr

/-- Observation record of the optimizer check at the top of one outer
training pass (lines 216-218). -/
structure EpochRec where
  idx : ℕ
  stepAtStart : ℕ
  sinceAtStart : ℕ
  optimBefore : Opt
  optimAfter : Opt
deriving DecidableEq, Repr

/-- The mutable state of `run` (lines 175-277), plus observation traces.
`interrupted` records that a `KeyboardInterrupt` has fired (and is being
propagated to the `except` clause on line 267). -/
structure TrainState where
  optimizer : Opt
  step : ℕ
  cur : ℚ
  best : ℚ
  sinceBest : ℕ
  tick : ℕ
  epoch : ℕ
  ticks : List TickRec
  epochs : List EpochRec
  interrupted : Bool
deriving DecidableEq, Repr

/-- The smoothing update `s := .75*cur + .25*acc` over `ℚ`, written with
`mkRat` so that the kernel can evaluate concrete runs (the `ℚ` field
operations do not reduce definitionally); `qsmooth_eq` below proves it
equal to `3/4 * cur + 1/4 * acc`. -/
def qsmooth (cur acc : ℚ) : ℚ :=
  mkRat (3 * cur.num * acc.den + acc.num * cur.den) (4 * (cur.den * acc.den))

/-- The comparison `x <= y` over `ℚ` as a kernel-computable Boolean;
`qle_eq_decide` below proves it equal to `decide (x ≤ y)`. -/
def qle (x y : ℚ) : Bool :=
  decide (x.num * (y.den : ℤ) ≤ y.num * (x.den : ℤ))

/-- The observation record written by one evaluation tick (lines 225-242),
taken at the state whose `step` has already been incremented:
`s := .75*current_accuracy + .25*dev_accuracy` is the new smoothed
accuracy, the improvement test is `best_accuracy <= s` (ties improve), a
checkpoint save is triggered exactly when the test passes and `save_model`
is set, and `steps_since_best` is reset to 0 or advanced by
`print_every`. -/
def mkTick (cfg : TrainConfig) (a : ℕ → ℚ) (st : TrainState) : TickRec :=
  { idx := st.tick, stepNo := st.step, epochIdx := st.epoch, optim := st.optimizer,
    raw := a st.tick, curBefore := st.cur,
    smoothed := qsmooth st.cur (a st.tick),
    bestBefore := st.best,
    bestAfter :=
      if qle st.best (qsmooth st.cur (a st.tick))
        then qsmooth st.cur (a st.tick) else st.best,
    sinceBefore := st.sinceBest,
    sinceAfter :=
      if qle st.best (qsmooth st.cur (a st.tick))
        then 0 else st.sinceBest + cfg.printEvery,
    improved := qle st.best (qsmooth st.cur (a st.tick)),
    saved := cfg.saveModel && qle st.best (qsmooth st.cur (a st.tick)) }

/-- The state change of one evaluation tick (lines 226-242). -/
def tickUpdate (cfg : TrainConfig) (a : ℕ → ℚ) (st : TrainState) : TrainState :=
  { st with
    cur := (mkTick cfg a st).smoothed, tick := st.tick + 1,
    best := (mkTick cfg a st).bestAfter, sinceBest := (mkTick cfg a st).sinceAfter,
    ticks := st.ticks ++ [mkTick cfg a st] }

/-- One training step (lines 219-263): run one batch update, increment
`current_step`, and every `print_every` steps run the evaluation tick. -/
def doStep (cfg : TrainConfig) (a : ℕ → ℚ) (intr : Option ℕ) (st : TrainState) : TrainState :=
  if st.interrupted then st
  else if intr = some st.step then { st with interrupted := true }
  else if (st.step + 1) % cfg.printEvery = 0 then
    tickUpdate cfg a { st with step := st.step + 1 }
  else { st with step := st.step + 1 }

/-- Runs `n` consecutive training steps (one pass of the shuffled batch
iterator yields `epochSize` batches). -/
def doSteps (cfg : TrainConfig) (a : ℕ → ℚ) (intr : Option ℕ) : ℕ → TrainState → TrainState
  | 0, st => st
  | n + 1, st => doSteps cfg a intr n (doStep cfg a intr st)

/-- The optimizer check at the top of the outer `while` body (lines
216-218): `if steps_since_best > .1*max_steps_without_improvement and
switch_optimizers: train_tensors = amsgrad_train_tensors`.  The threshold
comparison `steps_since_best > .1*max` is modelled exactly over `ℚ` as
`10*steps_since_best > max`.  Only the active optimizer is touched. -/
def mkEpoch (cfg : TrainConfig) (st : TrainState) : EpochRec :=
  { idx := st.epoch, stepAtStart := st.step, sinceAtStart := st.sinceBest,
    optimBefore := st.optimizer,
    optimAfter :=
      if cfg.switchOptimizers && decide (10 * st.sinceBest > cfg.maxStepsWithoutImprovement)
        then Opt.amsgrad else st.optimizer }

def switchCheck (cfg : TrainConfig) (st : TrainState) : TrainState :=
  { st with optimizer := (mkEpoch cfg st).optimAfter, epochs := st.epochs ++ [mkEpoch cfg st] }

/-- One iteration of the outer `while` body (lines 216-264): the optimizer
check, one full pass over the shuffled training batches, then
`sess.run(update_step)` advancing the epoch counter (skipped if the pass
was interrupted, since the exception unwinds to line 267). -/
def epochWrap (st : TrainState) : TrainState :=
  if st.interrupted then st else { st with epoch := st.epoch + 1 }

def doEpoch (cfg : TrainConfig) (a : ℕ → ℚ) (intr : Option ℕ) (epochSize : ℕ)
    (st : TrainState) : TrainState :=
  if st.interrupted then st
  else epochWrap (doSteps cfg a intr epochSize (switchCheck cfg st))

/-- The `while` guard on line 215. -/
def guardB (cfg : TrainConfig) (st : TrainState) : Bool :=
  decide (st.step < cfg.maxSteps) && decide (st.sinceBest < cfg.maxStepsWithoutImprovement)

/-- The outer `while` loop (line 215), fuelled: each unit of fuel allows
one outer pass.  `maxSteps` units always suffice when `epochSize ≥ 1`. -/
def runLoop (cfg : TrainConfig) (a : ℕ → ℚ) (intr : Option ℕ) (epochSize : ℕ) :
    ℕ → TrainState → TrainState
  | 0, st => st
  | fuel + 1, st =>
    if st.interrupted then st
    else if guardB cfg st then runLoop cfg a intr epochSize fuel (doEpoch cfg a intr epochSize st)
    else st

/-- The state at the top of `run` (lines 176-214): Adam active, all
counters and accuracies zero. -/
def initTrainState : TrainState :=
  { optimizer := .adam, step := 0, cur := 0, best := 0, sinceBest := 0,
    tick := 0, epoch := 0, ticks := [], epochs := [], interrupted := false }

/-- The observable outcome of `BaseNetwork.train`: the final loop state,
whether the `SUCCESS` sentinel was written (line 265: after the loop,
inside the `try`, hence skipped when a `KeyboardInterrupt` fired), and
whether `scores.txt` was written (line 281: after `curses.wrapper`, on
both the normal and the interrupted path).  The caught interrupt never
escapes `train`, which the total return type reflects. -/
structure TrainResult where
  final : TrainState
  successWritten : Bool
  scoresWritten : Bool
deriving DecidableEq, Repr

/-- The method `BaseNetwork.train` (lines 111-285), reduced to its control loop and
exit side effects. -/
def train (cfg : TrainConfig) (a : ℕ → ℚ) (epochSize : ℕ) (intr : Option ℕ) (fuel : ℕ) :
    TrainResult :=
  let st := runLoop cfg a intr epochSize fuel initTrainState
  { final := st,
    successWritten := !st.interrupted && !guardB cfg st,
    scoresWritten := true }

/-- The smoothed-accuracy sequence as the specification states it:
`s 0 = 0.25*a 0` and `s (t+1) = 0.75*s t + 0.25*a (t+1)`.  This is the
spec-side definition that claim C3 compares the code against. -/
def emaSpec (a : ℕ → ℚ) : ℕ → ℚ
  | 0 => 1/4 * a 0
  | t + 1 => 3/4 * emaSpec a t + 1/4 * a (t + 1)

/-- The value of `current_accuracy` after `t` evaluation ticks, as an
auxiliary closed form for the loop invariant. -/
def emaPre (a : ℕ → ℚ) : ℕ → ℚ
  | 0 => 0
  | t + 1 => 3/4 * emaPre a t + 1/4 * a t

/-! ## Batched inference pipeline (`parse`, `parse_file`, `parse_files`,
lines 288-380)

File-system paths are modelled as lists of components; `os.path.join` is
component concatenation and `os.path.split p` is
`(p.dropLast, p.getLast)`.  An input file is a pair of its path and the
number of batches its rows yield under `dataset.file_batch_iterator`.
The pipeline is embedded as the list of observable events it performs, in
order, together with the runtime error (if any) that aborts it. -/

/-- A file-system path, as a list of components. -/
abbrev Path := List String

/-- Runtime failures of the inference pipeline: the line-354 assertion
(`output_filename` with several input files), the `os.path.join` of a
`None` `output_filename` in `parse_file` (line 310), and the read of the
unassigned `file_output_dir` in `parse_files` (line 336). -/
inductive PErr
  | usageError
  | typeError
  | unboundLocalError
deriving DecidableEq, Repr

/-- Observable events of the inference pipeline, in program order.
`datasetInit` is the construction of the `CoNLLUDataset` over the input
files (line 348); `restore` is the graph build plus checkpoint restore
(lines 362-375); `cache` is `graph_outputs.cache_predictions` for one
batch; `makedirs` and `write` are the output-side file-system effects. -/
inductive PEvent
  | datasetInit (files : List Path)
  | restore
  | cache (fileIdx batchIdx : ℕ)
  | makedirs (dir : Path)
  | write (path : Path) (fileIdx : ℕ)
deriving DecidableEq, Repr

/-- The split `os.path.split` on the component representation. -/
def osSplit (p : Path) : Path × String := (p.dropLast, p.getLastD "")

/-- The local variables of `parse_file` that the batch loop mutates
(lines 294-312): `input_filename`, `output_dir`, `output_filename`. -/
structure PFState where
  inFile : Path
  odir : Option Path
  ofname : Option Path
deriving DecidableEq, Repr

/-- One iteration of the `parse_file` batch loop (lines 294-312).  The
source computes the output location and serializes the cached predictions
INSIDE the per-batch loop: split the input filename (mutating it), default
`output_dir` to `<save_dir>/parsed/<input_dir>` (else, `elif`, default
`output_filename` to the input file's basename), `os.makedirs` the output
directory, then rebind `output_filename` to
`os.path.join(output_dir, output_filename)` and write the predictions.
When both overrides were `None`, `output_filename` is still `None` at the
join, which raises a `TypeError`. -/
def parseFileStep (saveDir : Path) (st : PFState) (i : ℕ) : List PEvent × Except PErr PFState :=
  let ev1 : List PEvent := [.cache 0 i]
  let (d, b) := osSplit st.inFile
  let st1 : PFState := { st with inFile := [b] }
  let st2 : PFState :=
    if st1.odir = none then { st1 with odir := some (saveDir ++ ["parsed"] ++ d) }
    else if st1.ofname = none then { st1 with ofname := some [b] }
    else st1
  match st2.odir with
  | none => (ev1, .error .typeError)
  | some od =>
    match st2.ofname with
    | none => (ev1 ++ [.makedirs od], .error .typeError)
    | some ofn =>
      let outPath := od ++ ofn
      (ev1 ++ [.makedirs od, .write outPath 0], .ok { st2 with ofname := some outPath })

/-- The `parse_file` batch loop over the listed batch indices. -/
def runFileBatches (saveDir : Path) (st : PFState) :
    List ℕ → List PEvent × Except PErr PFState
  | [] => ([], .ok st)
  | i :: is =>
    match parseFileStep saveDir st i with
    | (evs, .error e) => (evs, .error e)
    | (evs, .ok st') =>
      let (evs', r') := runFileBatches saveDir st' is
      (evs ++ evs', r')

/-- The method `BaseNetwork.parse_file` (lines 288-314): the single-file inference
path, called with the dataset's one input file and its batch count. -/
def parseFile (saveDir : Path) (inputFile : Path) (nBatches : ℕ)
    (odir ofname : Option Path) : List PEvent × Option PErr :=
  match runFileBatches saveDir ⟨inputFile, odir, ofname⟩ (List.range nBatches) with
  | (evs, .error e) => (evs, some e)
  | (evs, .ok _) => (evs, none)

/-- The local variables of `parse_files` shared across its file loop:
`output_dir` (never reassigned) and `file_output_dir`, which is a plain
local that is only assigned under `if output_dir is None` (line 334) and
is otherwise unbound on first use (line 336). -/
structure PFsState where
  odir : Option Path
  fileOutputDir : Option Path
deriving DecidableEq, Repr

/-- One iteration of the `parse_files` file loop (lines 324-340): cache
all of the file's batches, split the filename, assign `file_output_dir`
only when no output directory was supplied, then create the directory and
serialize the file's predictions once.  Reading `file_output_dir` when it
was never assigned raises `UnboundLocalError`. -/
def parseFilesFile (saveDir : Path) (st : PFsState) (fileIdx : ℕ) (file : Path × ℕ) :
    List PEvent × Except PErr PFsState :=
  let cacheEvs := (List.range file.2).map (PEvent.cache fileIdx)
  let (d, b) := osSplit file.1
  let st1 : PFsState :=
    if st.odir = none then { st with fileOutputDir := some (saveDir ++ ["parsed"] ++ d) }
    else st
  match st1.fileOutputDir with
  | none => (cacheEvs, .error .unboundLocalError)
  | some fod => (cacheEvs ++ [.makedirs fod, .write (fod ++ [b]) fileIdx], .ok st1)

/-- The `parse_files` loop over the enumerated input files. -/
def runFilesLoop (saveDir : Path) (st : PFsState) (idx : ℕ) :
    List (Path × ℕ) → List PEvent × Except PErr PFsState
  | [] => ([], .ok st)
  | f :: fs =>
    match parseFilesFile saveDir st idx f with
    | (evs, .error e) => (evs, .error e)
    | (evs, .ok st') =>
      let (evs', r') := runFilesLoop saveDir st' (idx + 1) fs
      (evs ++ evs', r')

/-- The method `BaseNetwork.parse_files` (lines 318-342): the multi-file inference
path.  With an empty file list the closing report on line 341 reads the
loop variable `file_index`, which is then unbound. -/
def parseFiles (saveDir : Path) (files : List (Path × ℕ)) (odir : Option Path) :
    List PEvent × Option PErr :=
  match files with
  | [] => ([], some .unboundLocalError)
  | _ :: _ =>
    match runFilesLoop saveDir ⟨odir, none⟩ 0 files with
    | (evs, .error e) => (evs, some e)
    | (evs, .ok _) => (evs, none)

/-- The method `BaseNetwork.parse` (lines 345-380): construct the
`CoNLLUDataset` over the input files (line 348; whether that construction
itself reads the input files is decided by code outside the modelled
slice, so the `datasetInit` event records only that the constructor runs
there), assert the single-file restriction when an output filename is
supplied (lines 353-354), build the graph and restore the checkpoint,
then dispatch to `parse_file` (one input file, or an output filename
supplied) or `parse_files`. -/
def parse (saveDir : Path) (files : List (Path × ℕ)) (odir ofname : Option Path) :
    List PEvent × Option PErr :=
  let ev0 : List PEvent := [.datasetInit (files.map (·.1))]
  if ofname.isSome && files.length != 1 then (ev0, some .usageError)
  else
    let ev1 := ev0 ++ [PEvent.restore]
    match files with
    | [f] =>
      let (evs, e) := parseFile saveDir f.1 f.2 odir ofname
      (ev1 ++ evs, e)
    | fs =>
      let (evs, e) := parseFiles saveDir fs odir
      (ev1 ++ evs, e)

/-! ### Invariant predicates for the training loop

The following predicates state, per observation record, exactly what the
source's tick / optimizer-check code writes, plus the chaining between
consecutive records; the lemmas below prove them invariant under the loop
transitions. -/

/-- What one evaluation tick writes (lines 225-242), per record. -/
structure TickGood (cfg : TrainConfig) (a : ℕ → ℚ) (r : TickRec) : Prop where
  rawEq : r.raw = a r.idx
  curBeforeEq : r.curBefore = emaPre a r.idx
  smoothedEq : r.smoothed = 3/4 * r.curBefore + 1/4 * r.raw
  smoothedEma : r.smoothed = emaPre a (r.idx + 1)
  improvedEq : r.improved = decide (r.bestBefore ≤ r.smoothed)
  savedEq : r.saved = (cfg.saveModel && r.improved)
  bestAfterEq : r.bestAfter = if r.improved then r.smoothed else r.bestBefore
  sinceAfterEq : r.sinceAfter = if r.improved then 0 else r.sinceBefore + cfg.printEvery
  stepMod : r.stepNo % cfg.printEvery = 0

/-- Chaining of two consecutive evaluation-tick records. -/
structure TickLink (r r2 : TickRec) : Prop where
  idxSucc : r2.idx = r.idx + 1
  curChain : r2.curBefore = r.smoothed
  bestChain : r2.bestBefore = r.bestAfter
  sinceChain : r2.sinceBefore = r.sinceAfter
  optMono : optRank r.optim ≤ optRank r2.optim

/-- What the per-pass optimizer check writes (lines 216-218). -/
structure EpochGood (cfg : TrainConfig) (e : EpochRec) : Prop where
  rule : e.optimAfter =
    if cfg.switchOptimizers && decide (10 * e.sinceAtStart > cfg.maxStepsWithoutImprovement)
      then Opt.amsgrad else e.optimBefore
  mono : optRank e.optimBefore ≤ optRank e.optimAfter

/-- The main loop invariant on the evaluation-tick trace. -/
structure CoreInv (cfg : TrainConfig) (a : ℕ → ℚ) (st : TrainState) : Prop where
  tickLen : st.tick = st.ticks.length
  curEq : st.cur = emaPre a st.tick
  recs : ∀ r ∈ st.ticks, TickGood cfg a r
  idxAt : ∀ i (h : i < st.ticks.length), (st.ticks.get ⟨i, h⟩).idx = i
  linkAt : ∀ i (h : i + 1 < st.ticks.length),
    TickLink (st.ticks.get ⟨i, Nat.lt_of_succ_lt h⟩) (st.ticks.get ⟨i + 1, h⟩)
  headOk : ∀ r, st.ticks.head? = some r →
    r.curBefore = 0 ∧ r.bestBefore = 0 ∧ r.sinceBefore = 0
  lastOk : ∀ hne : st.ticks ≠ [],
    (st.ticks.getLast hne).bestAfter = st.best ∧
    (st.ticks.getLast hne).sinceAfter = st.sinceBest ∧
    (st.ticks.getLast hne).smoothed = st.cur ∧
    optRank (st.ticks.getLast hne).optim ≤ optRank st.optimizer
  emptyOk : st.ticks = [] → st.best = 0 ∧ st.sinceBest = 0

/-- The epoch-trace invariant as it holds at the top of the `while` loop
(between outer passes). -/
structure EpochInvB (cfg : TrainConfig) (st : TrainState) : Prop where
  good : ∀ e ∈ st.epochs, EpochGood cfg e
  lt : ∀ e ∈ st.epochs, e.idx < st.epoch
  tickLt : ∀ r ∈ st.ticks, r.epochIdx < st.epoch
  tickOpt : ∀ r ∈ st.ticks, ∀ e ∈ st.epochs, r.epochIdx = e.idx → r.optim = e.optimAfter

/-- The epoch-trace invariant as it holds inside one outer pass (after the
optimizer check, before the epoch counter advances). -/
structure EpochInvM (cfg : TrainConfig) (st : TrainState) : Prop where
  good : ∀ e ∈ st.epochs, EpochGood cfg e
  le : ∀ e ∈ st.epochs, e.idx ≤ st.epoch
  tickLe : ∀ r ∈ st.ticks, r.epochIdx ≤ st.epoch
  tickOpt : ∀ r ∈ st.ticks, ∀ e ∈ st.epochs, r.epochIdx = e.idx → r.optim = e.optimAfter
  curEp : ∀ e ∈ st.epochs, e.idx = st.epoch → e.optimAfter = st.optimizer

/-- States reachable with switching disabled: Adam everywhere. -/
structure AllAdam (st : TrainState) : Prop where
  opt : st.optimizer = .adam
  ticks : ∀ r ∈ st.ticks, r.optim = .adam
  epochs : ∀ e ∈ st.epochs, e.optimBefore = .adam ∧ e.optimAfter = .adam

/-! ### Concrete inputs used by witnesses and counterexamples -/

def c2cfgC : NetConfig := ⟨["TaggerNetwork"], ["FormTokenVocab"], [], []⟩
def c2netsC : List InputNetwork := [⟨"TaggerNetwork", [⟨"IDIndexVocab", 9⟩]⟩]
def c2resC : InitResult :=
  { idVocab := ⟨"IDIndexVocab", 9⟩, inputVocabs := [⟨"FormTokenVocab", 0⟩],
    outputVocabs := [], throughputVocabs := [],
    vocabs := [⟨"IDIndexVocab", 9⟩, ⟨"FormTokenVocab", 0⟩] }
def c2cfgB : NetConfig := ⟨["TaggerNetwork"], [], [], []⟩
def c2netsB : List InputNetwork :=
  [⟨"TaggerNetwork", [⟨"FormTokenVocab", 3⟩, ⟨"FormTokenVocab", 4⟩]⟩]
def c9cfg : NetConfig := ⟨[], [], ["DeprelVocab"], ["FormTokenVocab"]⟩
def c3wcfg : TrainConfig := ⟨2, 100, 1, false, true⟩
def c1ccfg : TrainConfig := ⟨1, 100, 1, false, false⟩
def c1wcfg : TrainConfig := ⟨2, 100, 1, false, true⟩
def c4ccfg : TrainConfig := ⟨20, 12, 1, true, true⟩
def c4acc : ℕ → ℚ := fun t => if t = 0 then 1 else 0
def c4wcfg : TrainConfig := ⟨2, 100, 1, false, true⟩
def c5cfg : TrainConfig := ⟨8, 100, 1, false, true⟩

example :
    initNetwork ⟨[], [], [], []⟩ [] 0 =
      .ok { idVocab := ⟨"IDIndexVocab", 0⟩, inputVocabs := [], outputVocabs := [],
            throughputVocabs := [], vocabs := [⟨"IDIndexVocab", 0⟩] } := by
  decide

example :
    initNetwork ⟨["N"], [], [], []⟩ [⟨"N", [⟨"A", 0⟩, ⟨"A", 1⟩]⟩] 5 =
      .error .consistencyError := by
  decide

example :
    initNetwork ⟨["A"], [], [], []⟩ [] 0 = .error .configurationError := by
  decide

example :
    (initNetwork ⟨[], [], ["B"], ["A"]⟩ [] 0).map
        (fun r => r.throughputVocabs.map (·.classname)) = .ok ["B"] := by
  decide

/-! ## Lemmas about the `extant_vocabs` registry -/

theorem lookupE_append_some {e1 : Extant} {c : String} {v : Vocab} (e2 : Extant)
    (h : lookupE e1 c = some v) : lookupE (e1 ++ e2) c = some v := by
  induction e1 with
  | nil => simp [lookupE] at h
  | cons p es ih =>
    obtain ⟨k, w⟩ := p
    by_cases hc : c = k
    · simpa [lookupE, hc] using h
    · simp only [lookupE, hc, if_false, List.cons_append, if_neg hc] at h ⊢
      exact ih h

theorem lookupE_append_none {e1 : Extant} {c : String} (e2 : Extant)
    (h : lookupE e1 c = none) : lookupE (e1 ++ e2) c = lookupE e2 c := by
  induction e1 with
  | nil => simp [lookupE]
  | cons p es ih =>
    obtain ⟨k, w⟩ := p
    by_cases hc : c = k
    · simp [lookupE, hc] at h
    · simp only [lookupE, hc, if_false, List.cons_append, if_neg hc] at h ⊢
      exact ih h

theorem lookupE_mem {ext : Extant} {c : String} {v : Vocab}
    (h : lookupE ext c = some v) : (c, v) ∈ ext := by
  induction ext with
  | nil => simp [lookupE] at h
  | cons p es ih =>
    obtain ⟨k, w⟩ := p
    by_cases hc : c = k
    · simp only [lookupE, if_pos hc] at h
      subst hc
      obtain rfl : w = v := by injection h
      exact List.mem_cons_self ..
    · simp only [lookupE, if_neg hc] at h
      exact List.mem_cons_of_mem _ (ih h)

theorem not_mem_keys_of_lookupE_none {ext : Extant} {c : String}
    (h : lookupE ext c = none) : c ∉ ext.map Prod.fst := by
  induction ext with
  | nil => simp
  | cons p es ih =>
    obtain ⟨k, w⟩ := p
    by_cases hc : c = k
    · simp [lookupE, hc] at h
    · simp only [lookupE, if_neg hc] at h
      simpa [hc] using ih h

theorem lookupE_of_mem {ext : Extant} {k : String} {v : Vocab}
    (hwf : extWF ext) (h : (k, v) ∈ ext) : lookupE ext k = some v := by
  induction ext with
  | nil => simp at h
  | cons p es ih =>
    obtain ⟨k0, v0⟩ := p
    obtain ⟨hcn, hnd⟩ := hwf
    rcases List.mem_cons.mp h with heq | hmem
    · obtain ⟨rfl, rfl⟩ := Prod.mk.injEq .. ▸ heq
      simp [lookupE]
    · by_cases hc : k = k0
      · exfalso
        subst hc
        have : k ∈ es.map Prod.fst := List.mem_map_of_mem _ hmem
        exact (List.nodup_cons.mp hnd).1 this
      · simp only [lookupE, if_neg hc]
        exact ih ⟨fun q hq => hcn q (List.mem_cons_of_mem _ hq), (List.nodup_cons.mp hnd).2⟩ hmem

theorem lookupE_self_of_mem_values {ext : Extant} {v : Vocab}
    (hwf : extWF ext) (h : v ∈ ext.map Prod.snd) : lookupE ext v.classname = some v := by
  obtain ⟨p, hp, hpv⟩ := List.mem_map.mp h
  have hk : v.classname = p.1 := by
    rw [← hpv]
    exact hwf.1 p hp
  have hmem : (p.1, v) ∈ ext := by
    have hpe : p = (p.1, v) := by
      cases p
      cases hpv
      rfl
    rwa [← hpe]
  rw [hk]
  exact lookupE_of_mem hwf hmem

theorem extWF_nil : extWF [] := ⟨by simp, by simp⟩

theorem extWF_append {ext : Extant} {c : String} {v : Vocab}
    (hwf : extWF ext) (hn : lookupE ext c = none) (hv : v.classname = c) :
    extWF (ext ++ [(c, v)]) := by
  refine ⟨fun p hp => ?_, ?_⟩
  · rcases List.mem_append.mp hp with hp | hp
    · exact hwf.1 p hp
    · simp only [List.mem_singleton] at hp
      subst hp
      exact hv
  · have hc : c ∉ ext.map Prod.fst := not_mem_keys_of_lookupE_none hn
    simpa [List.nodup_append, hwf.2] using hc

/-! ## Lemmas about `collectExtant` (the sub-model vocab walk) -/

theorem collectExtant_cons_some {v : Vocab} {vs : List Vocab} {ext : Extant} {w : Vocab}
    (hl : lookupE ext v.classname = some w) :
    collectExtant (v :: vs) ext =
      if w = v then collectExtant vs ext else .error .consistencyError := by
  conv_lhs => unfold collectExtant
  rw [hl]

theorem collectExtant_cons_none {v : Vocab} {vs : List Vocab} {ext : Extant}
    (hl : lookupE ext v.classname = none) :
    collectExtant (v :: vs) ext = collectExtant vs (ext ++ [(v.classname, v)]) := by
  conv_lhs => unfold collectExtant
  rw [hl]

theorem collectExtant_grows :
    ∀ {vs : List Vocab} {ext ext' : Extant}, collectExtant vs ext = .ok ext' →
      ∃ tail, ext' = ext ++ tail := by
  intro vs
  induction vs with
  | nil =>
    intro ext ext' h
    obtain rfl : ext = ext' := by simpa [collectExtant] using h
    exact ⟨[], by simp⟩
  | cons v vs ih =>
    intro ext ext' h
    cases hl : lookupE ext v.classname with
    | some w =>
      rw [collectExtant_cons_some hl] at h
      by_cases hw : w = v
      · rw [if_pos hw] at h
        exact ih h
      · rw [if_neg hw] at h
        cases h
    | none =>
      rw [collectExtant_cons_none hl] at h
      obtain ⟨tail, htail⟩ := ih h
      exact ⟨(v.classname, v) :: tail, by simpa using htail⟩

theorem collectExtant_wf :
    ∀ {vs : List Vocab} {ext ext' : Extant}, extWF ext → collectExtant vs ext = .ok ext' →
      extWF ext' := by
  intro vs
  induction vs with
  | nil =>
    intro ext ext' hwf h
    obtain rfl : ext = ext' := by simpa [collectExtant] using h
    exact hwf
  | cons v vs ih =>
    intro ext ext' hwf h
    cases hl : lookupE ext v.classname with
    | some w =>
      rw [collectExtant_cons_some hl] at h
      by_cases hw : w = v
      · rw [if_pos hw] at h
        exact ih hwf h
      · rw [if_neg hw] at h
        cases h
    | none =>
      rw [collectExtant_cons_none hl] at h
      exact ih (extWF_append hwf hl rfl) h

theorem collectExtant_lookup :
    ∀ {vs : List Vocab} {ext ext' : Extant}, collectExtant vs ext = .ok ext' →
      ∀ v ∈ vs, lookupE ext' v.classname = some v := by
  intro vs
  induction vs with
  | nil => intro ext ext' _ v hv; simp at hv
  | cons u vs ih =>
    intro ext ext' h v hv
    cases hl : lookupE ext u.classname with
    | some w =>
      rw [collectExtant_cons_some hl] at h
      by_cases hw : w = u
      · rw [if_pos hw] at h
        rcases List.mem_cons.mp hv with rfl | hv'
        · obtain ⟨tail, rfl⟩ := collectExtant_grows h
          exact lookupE_append_some tail (hw ▸ hl)
        · exact ih h v hv'
      · rw [if_neg hw] at h
        cases h
    | none =>
      rw [collectExtant_cons_none hl] at h
      rcases List.mem_cons.mp hv with rfl | hv'
      · obtain ⟨tail, rfl⟩ := collectExtant_grows h
        have hself : lookupE (ext ++ [(v.classname, v)]) v.classname = some v := by
          rw [lookupE_append_none _ hl]
          simp [lookupE]
        exact lookupE_append_some tail hself
      · exact ih h v hv'

theorem collectExtant_error :
    ∀ {vs : List Vocab} {ext : Extant} {e : NetError}, collectExtant vs ext = .error e →
      e = .consistencyError := by
  intro vs
  induction vs with
  | nil => intro ext e h; simp [collectExtant] at h
  | cons v vs ih =>
    intro ext e h
    cases hl : lookupE ext v.classname with
    | some w =>
      rw [collectExtant_cons_some hl] at h
      by_cases hw : w = v
      · rw [if_pos hw] at h
        exact ih h
      · rw [if_neg hw] at h
        injection h with h
        exact h.symm
    | none =>
      rw [collectExtant_cons_none hl] at h
      exact ih h

/-! ## Lemmas about `stageId` and `resolveClasses` -/

theorem stageId_eq_some {ext : Extant} {w : Vocab} (fresh : ℕ)
    (hl : lookupE ext "IDIndexVocab" = some w) :
    stageId ext fresh = (w, ext, fresh) := by
  conv_lhs => unfold stageId
  rw [hl]

theorem stageId_eq_none {ext : Extant} (fresh : ℕ)
    (hl : lookupE ext "IDIndexVocab" = none) :
    stageId ext fresh =
      (⟨"IDIndexVocab", fresh⟩, ext ++ [("IDIndexVocab", ⟨"IDIndexVocab", fresh⟩)],
        fresh + 1) := by
  conv_lhs => unfold stageId
  rw [hl]

theorem stageId_grows (ext : Extant) (fresh : ℕ) :
    ∃ tail, (stageId ext fresh).2.1 = ext ++ tail := by
  cases hl : lookupE ext "IDIndexVocab" with
  | some w => exact ⟨[], by rw [stageId_eq_some fresh hl]; simp⟩
  | none => exact ⟨[("IDIndexVocab", ⟨"IDIndexVocab", fresh⟩)], by rw [stageId_eq_none fresh hl]⟩

theorem stageId_wf {ext : Extant} (fresh : ℕ) (hwf : extWF ext) :
    extWF (stageId ext fresh).2.1 := by
  cases hl : lookupE ext "IDIndexVocab" with
  | some w =>
    rw [stageId_eq_some fresh hl]
    exact hwf
  | none =>
    rw [stageId_eq_none fresh hl]
    exact extWF_append hwf hl rfl

theorem stageId_lookup (ext : Extant) (fresh : ℕ) :
    lookupE (stageId ext fresh).2.1 "IDIndexVocab" = some (stageId ext fresh).1 := by
  cases hl : lookupE ext "IDIndexVocab" with
  | some w =>
    rw [stageId_eq_some fresh hl]
    exact hl
  | none =>
    rw [stageId_eq_none fresh hl]
    show lookupE (ext ++ [("IDIndexVocab", ⟨"IDIndexVocab", fresh⟩)]) "IDIndexVocab" = _
    rw [lookupE_append_none _ hl]
    simp [lookupE]

theorem stageId_classname {ext : Extant} (fresh : ℕ) (hwf : extWF ext) :
    (stageId ext fresh).1.classname = "IDIndexVocab" := by
  cases hl : lookupE ext "IDIndexVocab" with
  | some w =>
    rw [stageId_eq_some fresh hl]
    exact hwf.1 _ (lookupE_mem hl)
  | none =>
    rw [stageId_eq_none fresh hl]

theorem stageId_reuse {ext : Extant} {w : Vocab} (fresh : ℕ)
    (h : lookupE ext "IDIndexVocab" = some w) : (stageId ext fresh).1 = w := by
  rw [stageId_eq_some fresh h]

theorem mem_setInsert {v w : Vocab} {acc : List Vocab} (h : v ∈ setInsert w acc) :
    v = w ∨ v ∈ acc := by
  unfold setInsert at h
  split at h
  · exact Or.inr h
  · rcases List.mem_append.mp h with h | h
    · exact Or.inr h
    · exact Or.inl (List.mem_singleton.mp h)

theorem resolveClasses_cons_some {ext : Extant} {c : String} {w : Vocab}
    (fresh : ℕ) (cs : List String) (acc : List Vocab) (hl : lookupE ext c = some w) :
    resolveClasses ext fresh (c :: cs) acc = resolveClasses ext fresh cs (setInsert w acc) := by
  conv_lhs => unfold resolveClasses
  rw [hl]

theorem resolveClasses_cons_none {ext : Extant} {c : String}
    (fresh : ℕ) (cs : List String) (acc : List Vocab) (hl : lookupE ext c = none) :
    resolveClasses ext fresh (c :: cs) acc =
      resolveClasses (ext ++ [(c, ⟨c, fresh⟩)]) (fresh + 1) cs (setInsert ⟨c, fresh⟩ acc) := by
  conv_lhs => unfold resolveClasses
  rw [hl]

theorem resolveClasses_grows :
    ∀ {cs : List String} {ext : Extant} {fresh : ℕ} {acc : List Vocab},
      ∃ tail, (resolveClasses ext fresh cs acc).2.1 = ext ++ tail := by
  intro cs
  induction cs with
  | nil => intro ext fresh acc; exact ⟨[], by simp [resolveClasses]⟩
  | cons c cs ih =>
    intro ext fresh acc
    cases hl : lookupE ext c with
    | some w =>
      rw [resolveClasses_cons_some fresh cs acc hl]
      exact ih
    | none =>
      rw [resolveClasses_cons_none fresh cs acc hl]
      obtain ⟨tail, htail⟩ := @ih (ext ++ [(c, ⟨c, fresh⟩)]) (fresh + 1)
        (setInsert ⟨c, fresh⟩ acc)
      exact ⟨(c, ⟨c, fresh⟩) :: tail, by simpa using htail⟩

theorem resolveClasses_wf :
    ∀ {cs : List String} {ext : Extant} {fresh : ℕ} {acc : List Vocab}, extWF ext →
      extWF (resolveClasses ext fresh cs acc).2.1 := by
  intro cs
  induction cs with
  | nil => intro ext fresh acc hwf; simpa [resolveClasses] using hwf
  | cons c cs ih =>
    intro ext fresh acc hwf
    cases hl : lookupE ext c with
    | some w =>
      rw [resolveClasses_cons_some fresh cs acc hl]
      exact ih hwf
    | none =>
      rw [resolveClasses_cons_none fresh cs acc hl]
      exact ih (extWF_append hwf hl rfl)

theorem resolveClasses_lookup :
    ∀ {cs : List String} {ext : Extant} {fresh : ℕ} {acc : List Vocab}, extWF ext →
      (∀ v ∈ acc, lookupE ext v.classname = some v) →
      ∀ v ∈ (resolveClasses ext fresh cs acc).1,
        lookupE (resolveClasses ext fresh cs acc).2.1 v.classname = some v := by
  intro cs
  induction cs with
  | nil =>
    intro ext fresh acc _ hacc v hv
    simp only [resolveClasses] at hv ⊢
    exact hacc v hv
  | cons c cs ih =>
    intro ext fresh acc hwf hacc v hv
    cases hl : lookupE ext c with
    | some w =>
      rw [resolveClasses_cons_some fresh cs acc hl] at hv ⊢
      refine ih hwf (fun u hu => ?_) v hv
      rcases mem_setInsert hu with rfl | hu'
      · have hwc : u.classname = c := hwf.1 _ (lookupE_mem hl)
        rw [hwc]
        exact hl
      · exact hacc u hu'
    | none =>
      rw [resolveClasses_cons_none fresh cs acc hl] at hv ⊢
      refine ih (extWF_append hwf hl rfl) (fun u hu => ?_) v hv
      rcases mem_setInsert hu with rfl | hu'
      · show lookupE (ext ++ [(c, ⟨c, fresh⟩)]) c = _
        rw [lookupE_append_none _ hl]
        simp [lookupE]
      · exact lookupE_append_some _ (hacc u hu')

/-! ## Structure of `initNetwork` -/

theorem lookupE_mono {e1 e2 : Extant} {c : String} {v : Vocab}
    (h12 : ∃ t, e2 = e1 ++ t) (h : lookupE e1 c = some v) : lookupE e2 c = some v := by
  obtain ⟨t, rfl⟩ := h12
  exact lookupE_append_some t h

theorem initNetwork_ok {cfg : NetConfig} {nets : List InputNetwork} {fresh : ℕ} {r : InitResult}
    (h : initNetwork cfg nets fresh = .ok r) :
    ∃ ext0, collectExtant (nets.flatMap (·.vocabs)) [] = .ok ext0 ∧
      r = initResolve cfg ext0 fresh := by
  unfold initNetwork at h
  split at h
  · cases h
  · cases hce : collectExtant (nets.flatMap (·.vocabs)) [] with
    | error e =>
      rw [hce] at h
      cases h
    | ok ext0 =>
      rw [hce] at h
      have h' : Except.ok (ε := NetError) (initResolve cfg ext0 fresh) = .ok r := h
      injection h' with h'
      exact ⟨ext0, rfl, h'.symm⟩

theorem grows_trans {a b c : Extant} (h1 : ∃ t, b = a ++ t) (h2 : ∃ t, c = b ++ t) :
    ∃ t, c = a ++ t := by
  obtain ⟨t1, rfl⟩ := h1
  obtain ⟨t2, rfl⟩ := h2
  exact ⟨t1 ++ t2, by simp⟩

/-- The combined effect of lines 66-103: a final registry `extF` exists
that is well-formed, extends the sub-model registry `ext0`, has exactly
`self._vocabs` as its values, and indexes every resolved vocabulary (the
input/output/throughput sets and the id vocab) at its own class name; the
id vocab carries its class name and is reused verbatim when `ext0` already
registers one. -/
theorem initResolve_lookup (cfg : NetConfig) {ext0 : Extant} (fresh : ℕ) (hwf : extWF ext0) :
    ∃ extF : Extant, extWF extF ∧ (∃ t, extF = ext0 ++ t) ∧
      (initResolve cfg ext0 fresh).vocabs = extF.map Prod.snd ∧
      (∀ v ∈ (initResolve cfg ext0 fresh).inputVocabs, lookupE extF v.classname = some v) ∧
      (∀ v ∈ (initResolve cfg ext0 fresh).outputVocabs, lookupE extF v.classname = some v) ∧
      (∀ v ∈ (initResolve cfg ext0 fresh).throughputVocabs, lookupE extF v.classname = some v) ∧
      lookupE extF (initResolve cfg ext0 fresh).idVocab.classname =
        some (initResolve cfg ext0 fresh).idVocab ∧
      (initResolve cfg ext0 fresh).idVocab.classname = "IDIndexVocab" ∧
      (∀ w, lookupE ext0 "IDIndexVocab" = some w → (initResolve cfg ext0 fresh).idVocab = w) := by
  set s1 := stageId ext0 fresh with hs1
  set s2 := resolveClasses s1.2.1 s1.2.2 cfg.inputVocabClasses [] with hs2
  set s3 := resolveClasses s2.2.1 s2.2.2 cfg.outputVocabClasses [] with hs3
  set s4 := resolveClasses s3.2.1 s3.2.2 cfg.outputVocabClasses [] with hs4
  have hfields : initResolve cfg ext0 fresh =
      { idVocab := s1.1, inputVocabs := s2.1, outputVocabs := s3.1,
        throughputVocabs := s4.1, vocabs := s4.2.1.map (·.2) } := rfl
  have hwf1 : extWF s1.2.1 := stageId_wf fresh hwf
  have hwf2 : extWF s2.2.1 := hs2 ▸ resolveClasses_wf hwf1
  have hwf3 : extWF s3.2.1 := hs3 ▸ resolveClasses_wf hwf2
  have hwf4 : extWF s4.2.1 := hs4 ▸ resolveClasses_wf hwf3
  have g1 : ∃ t, s1.2.1 = ext0 ++ t := stageId_grows ext0 fresh
  have g2 : ∃ t, s2.2.1 = s1.2.1 ++ t := hs2 ▸ resolveClasses_grows
  have g3 : ∃ t, s3.2.1 = s2.2.1 ++ t := hs3 ▸ resolveClasses_grows
  have g4 : ∃ t, s4.2.1 = s3.2.1 ++ t := hs4 ▸ resolveClasses_grows
  have g24 : ∃ t, s4.2.1 = s2.2.1 ++ t := grows_trans g3 g4
  have g14 : ∃ t, s4.2.1 = s1.2.1 ++ t := grows_trans g2 g24
  have g04 : ∃ t, s4.2.1 = ext0 ++ t := grows_trans g1 g14
  refine ⟨s4.2.1, hwf4, g04, by rw [hfields], ?_, ?_, ?_, ?_, ?_, ?_⟩
  · intro v hv
    rw [hfields] at hv
    have h2 : lookupE s2.2.1 v.classname = some v :=
      hs2 ▸ resolveClasses_lookup hwf1 (by simp) v (by simpa [hs2] using hv)
    exact lookupE_mono g24 h2
  · intro v hv
    rw [hfields] at hv
    have h3 : lookupE s3.2.1 v.classname = some v :=
      hs3 ▸ resolveClasses_lookup hwf2 (by simp) v (by simpa [hs3] using hv)
    exact lookupE_mono g4 h3
  · intro v hv
    rw [hfields] at hv
    exact hs4 ▸ resolveClasses_lookup hwf3 (by simp) v (by simpa [hs4] using hv)
  · rw [hfields]
    have h1 : lookupE s1.2.1 s1.1.classname = some s1.1 := by
      have := stageId_lookup ext0 fresh
      rw [stageId_classname fresh hwf]
      exact this
    exact lookupE_mono g14 h1
  · rw [hfields]
    exact stageId_classname fresh hwf
  · intro w hw
    rw [hfields]
    exact stageId_reuse fresh hw

/-! ## Claims C2, C7, C9 -/

/-- Claim C2: after model construction with any set of frozen input
sub-models, each vocabulary class name is bound to exactly one vocabulary
instance, shared by reference across the whole composition (the model's
input, output, throughput and id vocabularies and all sub-models'
vocabularies); if two sub-models supply non-identical instances of the
same vocabulary class, construction fails with a ConsistencyError; an
identifier (IDIndexVocab) instance always exists in the resulting
vocabulary set, reused from a sub-model when one supplies it. -/
theorem c2_vocab_registry_sharing (cfg : NetConfig) (nets : List InputNetwork) (fresh : ℕ) :
    (∀ r, initNetwork cfg nets fresh = .ok r →
      (∀ v ∈ compositionVocabs nets r, ∀ w ∈ compositionVocabs nets r,
        v.classname = w.classname → v = w) ∧
      r.idVocab.classname = "IDIndexVocab" ∧
      r.idVocab ∈ r.vocabs ∧
      (∀ v ∈ nets.flatMap (·.vocabs), v.classname = "IDIndexVocab" → r.idVocab = v)) ∧
    ((nets.map (·.classname)).toFinset = cfg.inputNetworkClasses.toFinset →
      ∀ v ∈ nets.flatMap (·.vocabs), ∀ w ∈ nets.flatMap (·.vocabs),
        v.classname = w.classname → v ≠ w →
        initNetwork cfg nets fresh = .error .consistencyError) := by
  constructor
  · intro r hr
    obtain ⟨ext0, hce, rfl⟩ := initNetwork_ok hr
    have hwf0 : extWF ext0 := collectExtant_wf extWF_nil hce
    obtain ⟨extF, hwfF, gF, hvoc, hin, hout, hthr, hid, hidcn, hreuse⟩ :=
      initResolve_lookup cfg fresh hwf0
    have master : ∀ v ∈ compositionVocabs nets (initResolve cfg ext0 fresh),
        lookupE extF v.classname = some v := by
      intro v hv
      unfold compositionVocabs at hv
      simp only [List.mem_append, List.mem_singleton] at hv
      rcases hv with ((((hv | hv) | hv) | hv) | rfl) | hv
      · exact lookupE_self_of_mem_values hwfF (hvoc ▸ hv)
      · exact hin v hv
      · exact hout v hv
      · exact hthr v hv
      · exact hid
      · exact lookupE_mono gF (collectExtant_lookup hce v hv)
    refine ⟨?_, hidcn, ?_, ?_⟩
    · intro v hv w hw hcn
      have h1 := master v hv
      have h2 := master w hw
      rw [hcn] at h1
      exact Option.some.inj (h1.symm.trans h2)
    · have hmem := lookupE_mem hid
      rw [hvoc]
      exact List.mem_map_of_mem _ hmem
    · intro v hv hcn
      have hl := collectExtant_lookup hce v hv
      rw [hcn] at hl
      exact hreuse v hl
  · intro hcl v hv w hw hcn hne
    unfold initNetwork
    rw [if_neg (not_not_intro hcl)]
    cases hce : collectExtant (nets.flatMap (·.vocabs)) [] with
    | ok ext0 =>
      exfalso
      have h1 := collectExtant_lookup hce v hv
      have h2 := collectExtant_lookup hce w hw
      rw [hcn] at h1
      exact hne (Option.some.inj (h1.symm.trans h2))
    | error e =>
      show Except.error e = .error .consistencyError
      rw [collectExtant_error hce]






/-- Witness for C2: a concrete composition where the sub-model's id vocab
is reused verbatim and registered, and a concrete pair of conflicting
instances that makes construction fail. -/
theorem c2_vocab_registry_sharing_witness :
    c2resC.idVocab = ⟨"IDIndexVocab", 9⟩ ∧ c2resC.idVocab ∈ c2resC.vocabs ∧
    initNetwork c2cfgB c2netsB 7 = .error .consistencyError := by
  obtain ⟨huniq, hcn, hmem, hreuse⟩ :=
    (c2_vocab_registry_sharing c2cfgC c2netsC 0).1 c2resC (by rfl)
  exact ⟨hreuse ⟨"IDIndexVocab", 9⟩ (by decide) rfl, hmem,
    (c2_vocab_registry_sharing c2cfgB c2netsB 7).2 (by decide) ⟨"FormTokenVocab", 3⟩ (by decide)
      ⟨"FormTokenVocab", 4⟩ (by decide) rfl (by decide)⟩

/-- Claim C7: if the set of class names of the supplied input sub-models
differs from the configured `input_network_classes` list, model
construction fails with a ConfigurationError before any graph work or
vocabulary resolution occurs (the returned value is the bare error, with
no registry built). -/
theorem c7_input_network_mismatch_fails (cfg : NetConfig) (nets : List InputNetwork) (fresh : ℕ)
    (h : (nets.map (·.classname)).toFinset ≠ cfg.inputNetworkClasses.toFinset) :
    initNetwork cfg nets fresh = .error .configurationError := by
  unfold initNetwork
  rw [if_pos h]

/-- Witness for C7: a declared sub-model class with no supplied instance. -/
theorem c7_input_network_mismatch_fails_witness :
    initNetwork ⟨["TaggerNetwork"], ["FormTokenVocab"], ["DeprelVocab"], []⟩ [] 0 =
      .error .configurationError :=
  c7_input_network_mismatch_fails _ _ 0 (by decide)


/-- Claim C9 (refuted; code bug at line 95): the constructed throughput
vocabulary set is resolved from `output_vocab_classes`, not from the
declared `throughput_vocab_classes`.  With
`throughput_vocab_classes = [FormTokenVocab]` and
`output_vocab_classes = [DeprelVocab]` the resulting throughput set
consists of a DeprelVocab instance and contains no FormTokenVocab. -/
theorem c9_throughput_vocabs_from_output_classes :
    c9cfg.throughputVocabClasses = ["FormTokenVocab"] ∧
    c9cfg.outputVocabClasses = ["DeprelVocab"] ∧
    (initNetwork c9cfg [] 0).map (fun r => r.throughputVocabs.map (·.classname)) =
      .ok ["DeprelVocab"] := by
  refine ⟨rfl, rfl, by rfl⟩

/-! ## Lemmas about the training loop -/

theorem optRank_le_amsgrad (o : Opt) : optRank o ≤ optRank .amsgrad := by
  cases o <;> simp [optRank]

theorem emaSpec_eq_emaPre (a : ℕ → ℚ) : ∀ t, emaSpec a t = emaPre a (t + 1)
  | 0 => by simp [emaSpec, emaPre]
  | t + 1 => by rw [emaSpec, emaPre, emaSpec_eq_emaPre a t]

theorem get_append_left_eq {α : Type} (l1 l2 : List α) (i : ℕ) (h : i < l1.length)
    (h2 : i < (l1 ++ l2).length) : (l1 ++ l2).get ⟨i, h2⟩ = l1.get ⟨i, h⟩ := by
  simp [List.get_eq_getElem, List.getElem_append_left, h]

theorem get_concat_last_eq {α : Type} (l : List α) (x : α) (h : l.length < (l ++ [x]).length) :
    (l ++ [x]).get ⟨l.length, h⟩ = x := by
  simp [List.get_eq_getElem]

theorem head?_concat_of_ne {α : Type} {l : List α} (x : α) (h : l ≠ []) :
    (l ++ [x]).head? = l.head? := by
  cases l with
  | nil => exact absurd rfl h
  | cons y ys => rfl

theorem getLast_concat_eq {α : Type} (l : List α) (x : α) (h : l ++ [x] ≠ []) :
    (l ++ [x]).getLast h = x := by
  induction l with
  | nil => rfl
  | cons y ys ih =>
    have h2 : ys ++ [x] ≠ [] := by simp
    exact (List.getLast_cons h2).trans (ih h2)

theorem getLast_eq_get_pred {α : Type} (l : List α) (hne : l ≠ [])
    (h : l.length - 1 < l.length) : l.getLast hne = l.get ⟨l.length - 1, h⟩ := by
  rw [List.getLast_eq_get]

theorem idxAt_concat {l : List TickRec} {tk : TickRec}
    (hidx : ∀ i (h : i < l.length), (l.get ⟨i, h⟩).idx = i) (htk : tk.idx = l.length) :
    ∀ i (h : i < (l ++ [tk]).length), ((l ++ [tk]).get ⟨i, h⟩).idx = i := by
  intro i hi
  by_cases hlt : i < l.length
  · rw [get_append_left_eq _ _ _ hlt]
    exact hidx i hlt
  · have hieq : i = l.length := by
      simp only [List.length_append, List.length_singleton] at hi
      omega
    subst hieq
    rw [get_concat_last_eq]
    exact htk

theorem linkAt_concat {l : List TickRec} {tk : TickRec}
    (hlink : ∀ i (h : i + 1 < l.length),
      TickLink (l.get ⟨i, Nat.lt_of_succ_lt h⟩) (l.get ⟨i + 1, h⟩))
    (hlast : ∀ hne : l ≠ [], TickLink (l.getLast hne) tk) :
    ∀ i (h : i + 1 < (l ++ [tk]).length),
      TickLink ((l ++ [tk]).get ⟨i, Nat.lt_of_succ_lt h⟩) ((l ++ [tk]).get ⟨i + 1, h⟩) := by
  intro i hi
  by_cases hlt : i + 1 < l.length
  · rw [get_append_left_eq _ _ _ hlt, get_append_left_eq _ _ _ (Nat.lt_of_succ_lt hlt)]
    exact hlink i hlt
  · have hieq : i + 1 = l.length := by
      simp only [List.length_append, List.length_singleton] at hi
      omega
    have hi0 : i < l.length := by omega
    have hne : l ≠ [] := by
      intro hcon
      rw [hcon] at hi0
      simp at hi0
    rw [get_append_left_eq _ _ _ hi0]
    have hfin : (⟨i + 1, hi⟩ : Fin (l ++ [tk]).length) = ⟨l.length, by simp⟩ := by
      apply Fin.ext
      show i + 1 = l.length
      exact hieq
    rw [hfin, get_concat_last_eq]
    have hfin2 : (⟨i, hi0⟩ : Fin l.length) = ⟨l.length - 1, by omega⟩ := by
      apply Fin.ext
      show i = l.length - 1
      omega
    rw [hfin2, ← getLast_eq_get_pred l hne (by omega)]
    exact hlast hne

theorem qsmooth_eq (cur acc : ℚ) : qsmooth cur acc = 3/4 * cur + 1/4 * acc := by
  unfold qsmooth
  rw [Rat.mkRat_eq_divInt, Rat.divInt_eq_div]
  have hc : (cur.den : ℚ) ≠ 0 := by
    exact_mod_cast cur.den_nz
  have ha : (acc.den : ℚ) ≠ 0 := by
    exact_mod_cast acc.den_nz
  conv_rhs => rw [← Rat.num_div_den cur, ← Rat.num_div_den acc]
  push_cast
  field_simp
  ring

theorem qle_eq_decide (x y : ℚ) : qle x y = decide (x ≤ y) := by
  unfold qle
  have h : (x.num * (y.den : ℤ) ≤ y.num * (x.den : ℤ)) ↔ x ≤ y := by
    conv_rhs => rw [← Rat.num_divInt_den x, ← Rat.num_divInt_den y]
    rw [Rat.divInt_le_divInt (by exact_mod_cast x.pos) (by exact_mod_cast y.pos)]
  exact decide_eq_decide.mpr h

theorem mkTick_good {cfg : TrainConfig} {a : ℕ → ℚ} {st : TrainState}
    (hcur : st.cur = emaPre a st.tick) (hmod : st.step % cfg.printEvery = 0) :
    TickGood cfg a (mkTick cfg a st) := by
  refine ⟨rfl, hcur, ?_, ?_, ?_, rfl, rfl, rfl, hmod⟩
  · exact qsmooth_eq st.cur (a st.tick)
  · show qsmooth st.cur (a st.tick) = emaPre a (st.tick + 1)
    rw [qsmooth_eq, hcur, emaPre]
  · exact qle_eq_decide st.best (qsmooth st.cur (a st.tick))

theorem tickUpdate_core {cfg : TrainConfig} {a : ℕ → ℚ} {st : TrainState}
    (hmod : st.step % cfg.printEvery = 0) (h : CoreInv cfg a st) :
    CoreInv cfg a (tickUpdate cfg a st) := by
  have hg : TickGood cfg a (mkTick cfg a st) := mkTick_good h.curEq hmod
  have hlen : st.tick = st.ticks.length := h.tickLen
  have hlastlink : ∀ hne : st.ticks ≠ [], TickLink (st.ticks.getLast hne) (mkTick cfg a st) := by
    intro hne
    obtain ⟨hb, hs, hc, ho⟩ := h.lastOk hne
    have hpos : 0 < st.ticks.length := List.length_pos.mpr hne
    have hidxl : (st.ticks.getLast hne).idx = st.ticks.length - 1 := by
      rw [getLast_eq_get_pred st.ticks hne (by omega)]
      exact h.idxAt _ _
    constructor
    · show st.tick = (st.ticks.getLast hne).idx + 1
      rw [hidxl, hlen]
      omega
    · show st.cur = (st.ticks.getLast hne).smoothed
      rw [hc]
    · show st.best = (st.ticks.getLast hne).bestAfter
      rw [hb]
    · show st.sinceBest = (st.ticks.getLast hne).sinceAfter
      rw [hs]
    · show optRank (st.ticks.getLast hne).optim ≤ optRank st.optimizer
      exact ho
  constructor
  · show st.tick + 1 = (st.ticks ++ [mkTick cfg a st]).length
    simp [hlen]
  · show (mkTick cfg a st).smoothed = emaPre a (st.tick + 1)
    exact hg.smoothedEma
  · intro r hr
    rcases List.mem_append.mp hr with hr | hr
    · exact h.recs r hr
    · rw [List.mem_singleton.mp hr]
      exact hg
  · exact idxAt_concat h.idxAt hlen
  · exact linkAt_concat h.linkAt hlastlink
  · intro r hr
    have hr' : (st.ticks ++ [mkTick cfg a st]).head? = some r := hr
    by_cases hne : st.ticks = []
    · rw [hne] at hr'
      simp only [List.nil_append, List.head?_cons] at hr'
      have hrtk : mkTick cfg a st = r := by injection hr'
      rw [← hrtk]
      have ht0 : st.tick = 0 := by
        rw [h.tickLen, hne]
        rfl
      refine ⟨?_, ?_, ?_⟩
      · show st.cur = 0
        rw [h.curEq, ht0]
        rfl
      · show st.best = 0
        exact (h.emptyOk hne).1
      · show st.sinceBest = 0
        exact (h.emptyOk hne).2
    · rw [head?_concat_of_ne _ hne] at hr'
      exact h.headOk r hr'
  · intro hne
    have hne' : st.ticks ++ [mkTick cfg a st] ≠ [] := by simp
    have hgl : (tickUpdate cfg a st).ticks.getLast hne = mkTick cfg a st :=
      getLast_concat_eq st.ticks (mkTick cfg a st) hne'
    rw [hgl]
    exact ⟨rfl, rfl, rfl, le_refl _⟩
  · intro hcon
    have hcon' : st.ticks ++ [mkTick cfg a st] = [] := hcon
    simp at hcon'

theorem doStep_core {cfg : TrainConfig} {a : ℕ → ℚ} {intr : Option ℕ} {st : TrainState}
    (h : CoreInv cfg a st) : CoreInv cfg a (doStep cfg a intr st) := by
  unfold doStep
  split
  · exact h
  split
  · exact ⟨h.tickLen, h.curEq, h.recs, h.idxAt, h.linkAt, h.headOk, h.lastOk, h.emptyOk⟩
  split
  next hmod =>
    exact tickUpdate_core hmod
      ⟨h.tickLen, h.curEq, h.recs, h.idxAt, h.linkAt, h.headOk, h.lastOk, h.emptyOk⟩
  · exact ⟨h.tickLen, h.curEq, h.recs, h.idxAt, h.linkAt, h.headOk, h.lastOk, h.emptyOk⟩

theorem doSteps_core {cfg : TrainConfig} {a : ℕ → ℚ} {intr : Option ℕ} (n : ℕ)
    {st : TrainState} (h : CoreInv cfg a st) : CoreInv cfg a (doSteps cfg a intr n st) := by
  induction n generalizing st with
  | zero => exact h
  | succ n ih => exact ih (doStep_core h)

theorem switchCheck_core {cfg : TrainConfig} {a : ℕ → ℚ} {st : TrainState}
    (h : CoreInv cfg a st) : CoreInv cfg a (switchCheck cfg st) := by
  refine ⟨h.tickLen, h.curEq, h.recs, h.idxAt, h.linkAt, h.headOk, ?_, h.emptyOk⟩
  intro hne
  obtain ⟨hb, hs, hc, ho⟩ := h.lastOk hne
  refine ⟨hb, hs, hc, le_trans ho ?_⟩
  show optRank st.optimizer ≤ optRank (mkEpoch cfg st).optimAfter
  unfold mkEpoch
  split
  · exact optRank_le_amsgrad _
  · exact le_refl _

theorem doEpoch_core {cfg : TrainConfig} {a : ℕ → ℚ} {intr : Option ℕ} {es : ℕ}
    {st : TrainState} (h : CoreInv cfg a st) : CoreInv cfg a (doEpoch cfg a intr es st) := by
  unfold doEpoch epochWrap
  split
  · exact h
  · have h1 : CoreInv cfg a (doSteps cfg a intr es (switchCheck cfg st)) :=
      doSteps_core es (switchCheck_core h)
    split
    · exact h1
    · exact ⟨h1.tickLen, h1.curEq, h1.recs, h1.idxAt, h1.linkAt, h1.headOk, h1.lastOk,
        h1.emptyOk⟩

theorem mkEpoch_good (cfg : TrainConfig) (st : TrainState) : EpochGood cfg (mkEpoch cfg st) := by
  refine ⟨rfl, ?_⟩
  show optRank st.optimizer ≤ optRank (mkEpoch cfg st).optimAfter
  unfold mkEpoch
  split
  · exact optRank_le_amsgrad _
  · exact le_refl _

theorem switchCheck_epochM {cfg : TrainConfig} {st : TrainState} (h : EpochInvB cfg st) :
    EpochInvM cfg (switchCheck cfg st) := by
  constructor
  · intro e he
    have he' : e ∈ st.epochs ++ [mkEpoch cfg st] := he
    rcases List.mem_append.mp he' with he2 | he2
    · exact h.good e he2
    · rw [List.mem_singleton.mp he2]
      exact mkEpoch_good cfg st
  · intro e he
    have he' : e ∈ st.epochs ++ [mkEpoch cfg st] := he
    rcases List.mem_append.mp he' with he2 | he2
    · exact Nat.le_of_lt (h.lt e he2)
    · rw [List.mem_singleton.mp he2]
      exact le_refl _
  · intro r hr
    exact Nat.le_of_lt (h.tickLt r hr)
  · intro r hr e he
    have he' : e ∈ st.epochs ++ [mkEpoch cfg st] := he
    rcases List.mem_append.mp he' with he2 | he2
    · exact h.tickOpt r hr e he2
    · intro hre
      exfalso
      have h1 : r.epochIdx < st.epoch := h.tickLt r hr
      rw [List.mem_singleton.mp he2] at hre
      have h2 : r.epochIdx = st.epoch := hre
      omega
  · intro e he hidx
    have he' : e ∈ st.epochs ++ [mkEpoch cfg st] := he
    rcases List.mem_append.mp he' with he2 | he2
    · exfalso
      have h1 : e.idx < st.epoch := h.lt e he2
      have h2 : e.idx = st.epoch := hidx
      omega
    · rw [List.mem_singleton.mp he2]
      rfl

theorem tickUpdate_epochM {cfg : TrainConfig} {a : ℕ → ℚ} {st : TrainState}
    (h : EpochInvM cfg st) : EpochInvM cfg (tickUpdate cfg a st) := by
  constructor
  · exact h.good
  · exact h.le
  · intro r hr
    have hr' : r ∈ st.ticks ++ [mkTick cfg a st] := hr
    rcases List.mem_append.mp hr' with hr2 | hr2
    · exact h.tickLe r hr2
    · rw [List.mem_singleton.mp hr2]
      exact le_refl _
  · intro r hr e he hre
    have hr' : r ∈ st.ticks ++ [mkTick cfg a st] := hr
    rcases List.mem_append.mp hr' with hr2 | hr2
    · exact h.tickOpt r hr2 e he hre
    · rw [List.mem_singleton.mp hr2] at hre ⊢
      have hre2 : st.epoch = e.idx := hre
      show st.optimizer = e.optimAfter
      exact (h.curEp e he hre2.symm).symm
  · exact h.curEp

theorem doStep_epochM {cfg : TrainConfig} {a : ℕ → ℚ} {intr : Option ℕ} {st : TrainState}
    (h : EpochInvM cfg st) : EpochInvM cfg (doStep cfg a intr st) := by
  unfold doStep
  split
  · exact h
  split
  · exact ⟨h.good, h.le, h.tickLe, h.tickOpt, h.curEp⟩
  split
  · exact tickUpdate_epochM ⟨h.good, h.le, h.tickLe, h.tickOpt, h.curEp⟩
  · exact ⟨h.good, h.le, h.tickLe, h.tickOpt, h.curEp⟩

theorem doSteps_epochM {cfg : TrainConfig} {a : ℕ → ℚ} {intr : Option ℕ} (n : ℕ)
    {st : TrainState} (h : EpochInvM cfg st) : EpochInvM cfg (doSteps cfg a intr n st) := by
  induction n generalizing st with
  | zero => exact h
  | succ n ih => exact ih (doStep_epochM h)

theorem doEpoch_inv {cfg : TrainConfig} {a : ℕ → ℚ} {intr : Option ℕ} {es : ℕ}
    {st : TrainState} (hB : EpochInvB cfg st) :
    EpochInvB cfg (doEpoch cfg a intr es st) ∨
      (EpochInvM cfg (doEpoch cfg a intr es st) ∧
        (doEpoch cfg a intr es st).interrupted = true) := by
  unfold doEpoch epochWrap
  split
  · exact Or.inl hB
  · have hM : EpochInvM cfg (doSteps cfg a intr es (switchCheck cfg st)) :=
      doSteps_epochM es (switchCheck_epochM hB)
    split
    next hint => exact Or.inr ⟨hM, hint⟩
    next hint =>
      left
      constructor
      · exact hM.good
      · intro e he
        have h1 := hM.le e he
        show e.idx < (doSteps cfg a intr es (switchCheck cfg st)).epoch + 1
        omega
      · intro r hr
        have h1 := hM.tickLe r hr
        show r.epochIdx < (doSteps cfg a intr es (switchCheck cfg st)).epoch + 1
        omega
      · exact hM.tickOpt

theorem runLoop_inv {cfg : TrainConfig} {a : ℕ → ℚ} {intr : Option ℕ} {es : ℕ} (fuel : ℕ)
    {st : TrainState}
    (hc : CoreInv cfg a st)
    (he : EpochInvB cfg st ∨ (EpochInvM cfg st ∧ st.interrupted = true)) :
    CoreInv cfg a (runLoop cfg a intr es fuel st) ∧
      (EpochInvB cfg (runLoop cfg a intr es fuel st) ∨
        (EpochInvM cfg (runLoop cfg a intr es fuel st) ∧
          (runLoop cfg a intr es fuel st).interrupted = true)) := by
  induction fuel generalizing st with
  | zero => exact ⟨hc, he⟩
  | succ fuel ih =>
    unfold runLoop
    split
    · exact ⟨hc, he⟩
    next hni =>
      split
      · apply ih (doEpoch_core hc)
        rcases he with hB | ⟨_, hint⟩
        · exact doEpoch_inv hB
        · exact absurd hint hni
      · exact ⟨hc, he⟩

theorem initTrainState_core (cfg : TrainConfig) (a : ℕ → ℚ) : CoreInv cfg a initTrainState := by
  constructor
  · rfl
  · rfl
  · intro r hr
    cases hr
  · intro i h
    cases h
  · intro i h
    cases h
  · intro r hr
    cases hr
  · intro hne
    exact absurd rfl hne
  · intro _
    exact ⟨rfl, rfl⟩

theorem initTrainState_epochB (cfg : TrainConfig) : EpochInvB cfg initTrainState := by
  constructor
  · intro e he
    cases he
  · intro e he
    cases he
  · intro r hr
    cases hr
  · intro r hr
    cases hr

/-- The invariants at the final state of any training run. -/
theorem train_final_inv (cfg : TrainConfig) (a : ℕ → ℚ) (es : ℕ) (intr : Option ℕ) (fuel : ℕ) :
    CoreInv cfg a (train cfg a es intr fuel).final ∧
      (∀ e ∈ (train cfg a es intr fuel).final.epochs, EpochGood cfg e) ∧
      (∀ r ∈ (train cfg a es intr fuel).final.ticks,
        ∀ e ∈ (train cfg a es intr fuel).final.epochs,
          r.epochIdx = e.idx → r.optim = e.optimAfter) := by
  obtain ⟨hc, he⟩ := @runLoop_inv cfg a intr es fuel initTrainState
    (initTrainState_core cfg a) (Or.inl (initTrainState_epochB cfg))
  refine ⟨hc, ?_, ?_⟩
  · rcases he with hB | ⟨hM, _⟩
    · exact hB.good
    · exact hM.good
  · rcases he with hB | ⟨hM, _⟩
    · exact hB.tickOpt
    · exact hM.tickOpt

/-! ### Switching disabled: Adam throughout -/

theorem doStep_adam {cfg : TrainConfig} {a : ℕ → ℚ} {intr : Option ℕ} {st : TrainState}
    (h : AllAdam st) : AllAdam (doStep cfg a intr st) := by
  unfold doStep
  split
  · exact h
  split
  · exact ⟨h.opt, h.ticks, h.epochs⟩
  split
  · refine ⟨h.opt, ?_, h.epochs⟩
    intro r hr
    have hr' : r ∈ st.ticks ++ [mkTick cfg a { st with step := st.step + 1 }] := hr
    rcases List.mem_append.mp hr' with hr2 | hr2
    · exact h.ticks r hr2
    · rw [List.mem_singleton.mp hr2]
      exact h.opt
  · exact ⟨h.opt, h.ticks, h.epochs⟩

theorem doSteps_adam {cfg : TrainConfig} {a : ℕ → ℚ} {intr : Option ℕ} (n : ℕ)
    {st : TrainState} (h : AllAdam st) : AllAdam (doSteps cfg a intr n st) := by
  induction n generalizing st with
  | zero => exact h
  | succ n ih => exact ih (doStep_adam h)

theorem switchCheck_adam {cfg : TrainConfig} {st : TrainState}
    (hsw : cfg.switchOptimizers = false) (h : AllAdam st) : AllAdam (switchCheck cfg st) := by
  have hAfter : (mkEpoch cfg st).optimAfter = .adam := by
    unfold mkEpoch
    simp [hsw, h.opt]
  refine ⟨hAfter, h.ticks, ?_⟩
  intro e he
  have he' : e ∈ st.epochs ++ [mkEpoch cfg st] := he
  rcases List.mem_append.mp he' with he2 | he2
  · exact h.epochs e he2
  · rw [List.mem_singleton.mp he2]
    exact ⟨h.opt, hAfter⟩

theorem doEpoch_adam {cfg : TrainConfig} {a : ℕ → ℚ} {intr : Option ℕ} {es : ℕ}
    {st : TrainState} (hsw : cfg.switchOptimizers = false) (h : AllAdam st) :
    AllAdam (doEpoch cfg a intr es st) := by
  unfold doEpoch epochWrap
  split
  · exact h
  · have h1 : AllAdam (doSteps cfg a intr es (switchCheck cfg st)) :=
      doSteps_adam es (switchCheck_adam hsw h)
    split
    · exact h1
    · exact ⟨h1.opt, h1.ticks, h1.epochs⟩

theorem runLoop_adam {cfg : TrainConfig} {a : ℕ → ℚ} {intr : Option ℕ} {es : ℕ} (fuel : ℕ)
    {st : TrainState} (hsw : cfg.switchOptimizers = false) (h : AllAdam st) :
    AllAdam (runLoop cfg a intr es fuel st) := by
  induction fuel generalizing st with
  | zero => exact h
  | succ fuel ih =>
    unfold runLoop
    split
    · exact h
    split
    · exact ih (doEpoch_adam hsw h)
    · exact h

/-! ### Termination and interruption -/

theorem doStep_interrupted_id {cfg : TrainConfig} {a : ℕ → ℚ} {intr : Option ℕ}
    {st : TrainState} (h : st.interrupted = true) : doStep cfg a intr st = st := by
  unfold doStep
  rw [if_pos h]

theorem doStep_not_interrupted {cfg : TrainConfig} {a : ℕ → ℚ} {intr : Option ℕ}
    {st : TrainState} (h : (doStep cfg a intr st).interrupted = false) :
    st.interrupted = false ∧ (doStep cfg a intr st).step = st.step + 1 := by
  have h0 : st.interrupted = false := by
    by_cases hb : st.interrupted = true
    · rw [doStep_interrupted_id hb] at h
      rw [hb] at h
      cases h
    · simpa using hb
  refine ⟨h0, ?_⟩
  unfold doStep
  rw [if_neg (by simp [h0])]
  by_cases h2 : intr = some st.step
  · exfalso
    unfold doStep at h
    rw [if_neg (by simp [h0]), if_pos h2] at h
    cases h
  · rw [if_neg h2]
    split
    · rfl
    · rfl

theorem doSteps_not_interrupted {cfg : TrainConfig} {a : ℕ → ℚ} {intr : Option ℕ} (n : ℕ)
    {st : TrainState} (h : (doSteps cfg a intr n st).interrupted = false) :
    st.interrupted = false ∧ (doSteps cfg a intr n st).step = st.step + n := by
  induction n generalizing st with
  | zero => exact ⟨h, rfl⟩
  | succ n ih =>
    have hstep : doSteps cfg a intr (n + 1) st = doSteps cfg a intr n (doStep cfg a intr st) :=
      rfl
    rw [hstep] at h ⊢
    obtain ⟨h1, h2⟩ := ih h
    obtain ⟨h3, h4⟩ := doStep_not_interrupted h1
    refine ⟨h3, ?_⟩
    rw [h2, h4]
    omega

theorem doStep_epoch_eq {cfg : TrainConfig} {a : ℕ → ℚ} {intr : Option ℕ} {st : TrainState} :
    (doStep cfg a intr st).epoch = st.epoch := by
  unfold doStep
  split
  · rfl
  split
  · rfl
  split
  · rfl
  · rfl

theorem doSteps_epoch_eq {cfg : TrainConfig} {a : ℕ → ℚ} {intr : Option ℕ} (n : ℕ)
    {st : TrainState} : (doSteps cfg a intr n st).epoch = st.epoch := by
  induction n generalizing st with
  | zero => rfl
  | succ n ih => exact (@ih (doStep cfg a intr st)).trans doStep_epoch_eq

theorem doEpoch_not_interrupted {cfg : TrainConfig} {a : ℕ → ℚ} {intr : Option ℕ} {es : ℕ}
    {st : TrainState} (h : (doEpoch cfg a intr es st).interrupted = false) :
    (doEpoch cfg a intr es st).step = st.step + es ∧
    (doEpoch cfg a intr es st).epoch = st.epoch + 1 := by
  unfold doEpoch at h ⊢
  split at h
  · next hb =>
    rw [h] at hb
    cases hb
  · next hb =>
    rw [if_neg hb] at *
    have h1 : (doSteps cfg a intr es (switchCheck cfg st)).interrupted = false := by
      unfold epochWrap at h
      split at h
      · exact h
      · next hb2 => simpa using hb2
    obtain ⟨_, hstep⟩ := doSteps_not_interrupted es h1
    have hepoch : (doSteps cfg a intr es (switchCheck cfg st)).epoch = st.epoch := by
      rw [doSteps_epoch_eq]
      rfl
    have hwrap : epochWrap (doSteps cfg a intr es (switchCheck cfg st)) =
        { doSteps cfg a intr es (switchCheck cfg st) with
          epoch := (doSteps cfg a intr es (switchCheck cfg st)).epoch + 1 } := by
      unfold epochWrap
      rw [if_neg (by simp [h1])]
    rw [hwrap]
    constructor
    · show (doSteps cfg a intr es (switchCheck cfg st)).step = st.step + es
      exact hstep
    · show (doSteps cfg a intr es (switchCheck cfg st)).epoch + 1 = st.epoch + 1
      rw [hepoch]

theorem runLoop_interrupted_id {cfg : TrainConfig} {a : ℕ → ℚ} {intr : Option ℕ} {es : ℕ}
    (fuel : ℕ) {st : TrainState} (h : st.interrupted = true) :
    runLoop cfg a intr es fuel st = st := by
  cases fuel with
  | zero => rfl
  | succ fuel =>
    unfold runLoop
    rw [if_pos h]

theorem runLoop_succ_guard_true {cfg : TrainConfig} {a : ℕ → ℚ} {intr : Option ℕ} {es : ℕ}
    {fuel : ℕ} {st : TrainState} (h1 : st.interrupted = false) (h2 : guardB cfg st = true) :
    runLoop cfg a intr es (fuel + 1) st =
      runLoop cfg a intr es fuel (doEpoch cfg a intr es st) := by
  conv_lhs => unfold runLoop
  rw [if_neg (by simp [h1]), if_pos h2]

theorem runLoop_succ_guard_false {cfg : TrainConfig} {a : ℕ → ℚ} {intr : Option ℕ} {es : ℕ}
    {fuel : ℕ} {st : TrainState} (h1 : st.interrupted = false) (h2 : guardB cfg st = false) :
    runLoop cfg a intr es (fuel + 1) st = st := by
  conv_lhs => unfold runLoop
  rw [if_neg (by simp [h1]), if_neg (by simp [h2])]

/-- With at least one batch per pass and `maxSteps` units of fuel, an
uninterrupted run ends with the `while` guard false: the loop has
genuinely terminated by budget or patience. -/
theorem runLoop_exit {cfg : TrainConfig} {a : ℕ → ℚ} {intr : Option ℕ} {es : ℕ}
    (hes : 1 ≤ es) :
    ∀ (fuel : ℕ) (st : TrainState), cfg.maxSteps ≤ st.step + fuel →
      (runLoop cfg a intr es fuel st).interrupted = false →
      guardB cfg (runLoop cfg a intr es fuel st) = false := by
  intro fuel
  induction fuel with
  | zero =>
    intro st hle hni
    show guardB cfg st = false
    unfold guardB
    have hnl : ¬st.step < cfg.maxSteps := by omega
    simp [hnl]
  | succ fuel ih =>
    intro st hle hni
    by_cases hb : st.interrupted = true
    · rw [runLoop_interrupted_id (fuel + 1) hb] at hni
      rw [hni] at hb
      cases hb
    · have hb' : st.interrupted = false := by simpa using hb
      cases hg : guardB cfg st with
      | false =>
        rw [runLoop_succ_guard_false hb' hg]
        exact hg
      | true =>
        rw [runLoop_succ_guard_true hb' hg] at hni ⊢
        by_cases hi2 : (doEpoch cfg a intr es st).interrupted = true
        · rw [runLoop_interrupted_id fuel hi2] at hni
          rw [hni] at hi2
          cases hi2
        · have hi2' : (doEpoch cfg a intr es st).interrupted = false := by simpa using hi2
          obtain ⟨hstep, _⟩ := doEpoch_not_interrupted hi2'
          exact ih (doEpoch cfg a intr es st) (by omega) hni

/-! ## Claims C1, C3, C4, C5 -/

theorem head?_eq_get_zero {α : Type} (l : List α) (h : 0 < l.length) :
    l.head? = some (l.get ⟨0, h⟩) := by
  cases l with
  | nil => simp at h
  | cons x xs => rfl

/-- Claim C3: for every evaluation tick `t` with raw development-set
accuracy `a t`, the smoothed accuracy satisfies
`s t = 3/4 * s (t-1) + 1/4 * a t` with `s 0 = 1/4 * a 0` (the smoothing
starts from 0), and the smoothed value — not the raw one — is what the
improvement test compares against the best. -/
theorem c3_smoothed_accuracy_recurrence (cfg : TrainConfig) (a : ℕ → ℚ) (es : ℕ)
    (intr : Option ℕ) (fuel : ℕ) (i : ℕ)
    (h : i < (train cfg a es intr fuel).final.ticks.length) :
    ((train cfg a es intr fuel).final.ticks.get ⟨i, h⟩).smoothed = emaSpec a i ∧
    ((train cfg a es intr fuel).final.ticks.get ⟨i, h⟩).raw = a i ∧
    ((train cfg a es intr fuel).final.ticks.get ⟨i, h⟩).improved =
      decide (((train cfg a es intr fuel).final.ticks.get ⟨i, h⟩).bestBefore ≤
        emaSpec a i) := by
  obtain ⟨hc, -, -⟩ := train_final_inv cfg a es intr fuel
  have hmem : (train cfg a es intr fuel).final.ticks.get ⟨i, h⟩ ∈
      (train cfg a es intr fuel).final.ticks := List.get_mem _ _ _
  have hg := hc.recs _ hmem
  have hidx : ((train cfg a es intr fuel).final.ticks.get ⟨i, h⟩).idx = i := hc.idxAt i h
  have hs : ((train cfg a es intr fuel).final.ticks.get ⟨i, h⟩).smoothed = emaSpec a i := by
    have h1 := hg.smoothedEma
    rw [hidx] at h1
    rw [emaSpec_eq_emaPre]
    exact h1
  refine ⟨hs, ?_, ?_⟩
  · have hr := hg.rawEq
    rw [hidx] at hr
    exact hr
  · have hi := hg.improvedEq
    rw [hs] at hi
    exact hi


/-- Witness for C3 at a concrete two-tick run. -/
theorem c3_smoothed_accuracy_recurrence_witness :
    ((train c3wcfg (fun _ => 1) 1 none 3).final.ticks.get ⟨1, by decide⟩).smoothed =
      emaSpec (fun _ => 1) 1 ∧
    ((train c3wcfg (fun _ => 1) 1 none 3).final.ticks.get ⟨1, by decide⟩).raw = 1 ∧
    ((train c3wcfg (fun _ => 1) 1 none 3).final.ticks.get ⟨1, by decide⟩).improved =
      decide (((train c3wcfg (fun _ => 1) 1 none 3).final.ticks.get ⟨1, by decide⟩).bestBefore ≤
        emaSpec (fun _ => 1) 1) :=
  c3_smoothed_accuracy_recurrence c3wcfg (fun _ => 1) 1 none 3 1 (by decide)

/-- Claim C1 (amended): at every evaluation tick, a checkpoint save is
triggered iff model saving is enabled (`save_model`) AND the smoothed
accuracy is `>=` the best smoothed accuracy so far (ties improve; the
claim as stated omits the `save_model` gate).  On improvement ticks
`steps_since_improvement` resets to 0 and the best becomes the smoothed
value; on other ticks `steps_since_improvement` grows by exactly
`print_every` and the best is unchanged; consecutive ticks chain these
values, starting from best 0 and steps-since 0. -/
theorem c1_checkpoint_gating (cfg : TrainConfig) (a : ℕ → ℚ) (es : ℕ)
    (intr : Option ℕ) (fuel : ℕ) (i : ℕ)
    (h : i < (train cfg a es intr fuel).final.ticks.length) :
    (((train cfg a es intr fuel).final.ticks.get ⟨i, h⟩).saved = true ↔
      (cfg.saveModel = true ∧
        ((train cfg a es intr fuel).final.ticks.get ⟨i, h⟩).bestBefore ≤
          ((train cfg a es intr fuel).final.ticks.get ⟨i, h⟩).smoothed)) ∧
    (((train cfg a es intr fuel).final.ticks.get ⟨i, h⟩).bestBefore ≤
        ((train cfg a es intr fuel).final.ticks.get ⟨i, h⟩).smoothed →
      ((train cfg a es intr fuel).final.ticks.get ⟨i, h⟩).sinceAfter = 0 ∧
      ((train cfg a es intr fuel).final.ticks.get ⟨i, h⟩).bestAfter =
        ((train cfg a es intr fuel).final.ticks.get ⟨i, h⟩).smoothed) ∧
    (¬((train cfg a es intr fuel).final.ticks.get ⟨i, h⟩).bestBefore ≤
        ((train cfg a es intr fuel).final.ticks.get ⟨i, h⟩).smoothed →
      ((train cfg a es intr fuel).final.ticks.get ⟨i, h⟩).sinceAfter =
        ((train cfg a es intr fuel).final.ticks.get ⟨i, h⟩).sinceBefore + cfg.printEvery ∧
      ((train cfg a es intr fuel).final.ticks.get ⟨i, h⟩).bestAfter =
        ((train cfg a es intr fuel).final.ticks.get ⟨i, h⟩).bestBefore) ∧
    (∀ h2 : i + 1 < (train cfg a es intr fuel).final.ticks.length,
      ((train cfg a es intr fuel).final.ticks.get ⟨i + 1, h2⟩).sinceBefore =
        ((train cfg a es intr fuel).final.ticks.get ⟨i, h⟩).sinceAfter ∧
      ((train cfg a es intr fuel).final.ticks.get ⟨i + 1, h2⟩).bestBefore =
        ((train cfg a es intr fuel).final.ticks.get ⟨i, h⟩).bestAfter) ∧
    (i = 0 → ((train cfg a es intr fuel).final.ticks.get ⟨i, h⟩).bestBefore = 0 ∧
      ((train cfg a es intr fuel).final.ticks.get ⟨i, h⟩).sinceBefore = 0) := by
  obtain ⟨hc, -, -⟩ := train_final_inv cfg a es intr fuel
  have hmem : (train cfg a es intr fuel).final.ticks.get ⟨i, h⟩ ∈
      (train cfg a es intr fuel).final.ticks := List.get_mem _ _ _
  have hg := hc.recs _ hmem
  have himp : (((train cfg a es intr fuel).final.ticks.get ⟨i, h⟩).improved = true) ↔
      ((train cfg a es intr fuel).final.ticks.get ⟨i, h⟩).bestBefore ≤
        ((train cfg a es intr fuel).final.ticks.get ⟨i, h⟩).smoothed := by
    rw [hg.improvedEq]
    exact decide_eq_true_iff
  refine ⟨?_, ?_, ?_, ?_, ?_⟩
  · rw [hg.savedEq, Bool.and_eq_true, himp]
  · intro hle
    have ht : ((train cfg a es intr fuel).final.ticks.get ⟨i, h⟩).improved = true := himp.mpr hle
    rw [hg.sinceAfterEq, hg.bestAfterEq, ht]
    exact ⟨rfl, rfl⟩
  · intro hnle
    have ht : ((train cfg a es intr fuel).final.ticks.get ⟨i, h⟩).improved = false := by
      cases hcase : ((train cfg a es intr fuel).final.ticks.get ⟨i, h⟩).improved with
      | false => rfl
      | true => exact absurd (himp.mp hcase) hnle
    rw [hg.sinceAfterEq, hg.bestAfterEq, ht]
    exact ⟨rfl, rfl⟩
  · intro h2
    have hl := hc.linkAt i h2
    exact ⟨hl.sinceChain, hl.bestChain⟩
  · intro hi0
    subst hi0
    have hh := hc.headOk _ (head?_eq_get_zero _ h)
    exact ⟨hh.2.1, hh.2.2⟩


/-- Claim C1 as stated is refuted: with `save_model` disabled, the first
evaluation tick has smoothed accuracy 1/4 >= best 0 (an improvement), yet
no checkpoint save is triggered. -/
theorem c1_checkpoint_gating_counterexample :
    ((train c1ccfg (fun _ => 1) 1 none 3).final.ticks.map
      (fun r => (r.saved, decide (r.bestBefore ≤ r.smoothed)))) = [(false, true)] := by
  decide


/-- Witness for C1 (amended) at a concrete run with saving enabled. -/
theorem c1_checkpoint_gating_witness :
    ((train c1wcfg (fun _ => 1) 1 none 3).final.ticks.get ⟨0, by decide⟩).sinceAfter = 0 ∧
    ((train c1wcfg (fun _ => 1) 1 none 3).final.ticks.get ⟨0, by decide⟩).saved = true ∧
    ((train c1wcfg (fun _ => 1) 1 none 3).final.ticks.get ⟨0, by decide⟩).bestBefore = 0 := by
  obtain ⟨hiff, himp, -, -, hzero⟩ :=
    c1_checkpoint_gating c1wcfg (fun _ => 1) 1 none 3 0 (by decide)
  have hle : ((train c1wcfg (fun _ => 1) 1 none 3).final.ticks.get ⟨0, by decide⟩).bestBefore ≤
      ((train c1wcfg (fun _ => 1) 1 none 3).final.ticks.get ⟨0, by decide⟩).smoothed := by
    decide
  exact ⟨(himp hle).1, hiff.mpr ⟨rfl, hle⟩, (hzero rfl).1⟩

theorem optRank_mono_get {l : List TickRec}
    (hlink : ∀ i (h : i + 1 < l.length),
      TickLink (l.get ⟨i, Nat.lt_of_succ_lt h⟩) (l.get ⟨i + 1, h⟩)) :
    ∀ (d i : ℕ) (h : i + d < l.length) (h0 : i < l.length),
      optRank (l.get ⟨i, h0⟩).optim ≤ optRank (l.get ⟨i + d, h⟩).optim := by
  intro d
  induction d with
  | zero =>
    intro i h h0
    exact le_refl _
  | succ d ih =>
    intro i h h0
    have h1 : i + d < l.length := by omega
    have h2 : (i + d) + 1 < l.length := by omega
    have hstep := (hlink (i + d) h2).optMono
    have hfin : (⟨i + d + 1, h2⟩ : Fin l.length) = ⟨i + (d + 1), h⟩ := by
      apply Fin.ext
      show i + d + 1 = i + (d + 1)
      omega
    rw [hfin] at hstep
    exact le_trans (ih i h1 h0) hstep

/-- Claim C4 (amended): the optimizer is checked once per outer training
pass, not at every evaluation tick: at the start of each pass it becomes
AMSGrad exactly when switching is enabled and steps_since_improvement
exceeds 0.1*max_steps_without_improvement (else it is unchanged); the
per-tick optimizer sequence never moves back from AMSGrad to Adam; ticks
use exactly their pass's post-check optimizer; with switching disabled
Adam is used throughout; and the check itself alters neither the step
counter, the epoch counter, the best accuracy, the steps-since counter,
nor the tick trace. -/
theorem c4_optimizer_switch (cfg : TrainConfig) (a : ℕ → ℚ) (es : ℕ) (intr : Option ℕ)
    (fuel : ℕ) :
    (cfg.switchOptimizers = false →
      (train cfg a es intr fuel).final.optimizer = .adam ∧
      (∀ r ∈ (train cfg a es intr fuel).final.ticks, r.optim = .adam)) ∧
    (∀ e ∈ (train cfg a es intr fuel).final.epochs,
      e.optimAfter =
        if cfg.switchOptimizers && decide (10 * e.sinceAtStart > cfg.maxStepsWithoutImprovement)
          then Opt.amsgrad else e.optimBefore) ∧
    ((train cfg a es intr fuel).final.ticks.Pairwise
      (fun r r2 => optRank r.optim ≤ optRank r2.optim)) ∧
    (∀ r ∈ (train cfg a es intr fuel).final.ticks,
      ∀ e ∈ (train cfg a es intr fuel).final.epochs,
        r.epochIdx = e.idx → r.optim = e.optimAfter) ∧
    (∀ st : TrainState, (switchCheck cfg st).step = st.step ∧
      (switchCheck cfg st).epoch = st.epoch ∧ (switchCheck cfg st).best = st.best ∧
      (switchCheck cfg st).sinceBest = st.sinceBest ∧
      (switchCheck cfg st).ticks = st.ticks) := by
  obtain ⟨hc, hgood, htickopt⟩ := train_final_inv cfg a es intr fuel
  refine ⟨?_, ?_, ?_, htickopt, ?_⟩
  · intro hsw
    have had : AllAdam (train cfg a es intr fuel).final :=
      runLoop_adam fuel hsw ⟨rfl, fun r hr => (nomatch hr), fun e he => (nomatch he)⟩
    exact ⟨had.opt, had.ticks⟩
  · intro e he
    exact (hgood e he).rule
  · rw [List.pairwise_iff_getElem]
    intro i j hi hj hij
    have h1 : i + (j - i) < (train cfg a es intr fuel).final.ticks.length := by omega
    have := optRank_mono_get hc.linkAt (j - i) i h1 hi
    have hfin : (⟨i + (j - i), h1⟩ :
        Fin (train cfg a es intr fuel).final.ticks.length) = ⟨j, hj⟩ := by
      apply Fin.ext
      show i + (j - i) = j
      omega
    rw [hfin] at this
    simpa [List.get_eq_getElem] using this
  · intro st
    exact ⟨rfl, rfl, rfl, rfl, rfl⟩



/-- Claim C4 as stated is refuted: with `print_every = 1`, passes of 6
batches and patience 12 (0.1*12 = 1.2), tick 2 is the first evaluation
tick at which steps_since_improvement (= 2) exceeds the threshold, yet
ticks 3-5 — later steps of the same outer pass — still run Adam; AMSGrad
only becomes active at the next pass (tick 6 on). -/
theorem c4_optimizer_switch_counterexample :
    ((train c4ccfg c4acc 6 none 10).final.ticks.map (fun r => (r.sinceAfter, r.optim))).take 8 =
      [(0, .adam), (1, .adam), (2, .adam), (3, .adam), (4, .adam), (5, .adam),
       (6, .amsgrad), (7, .amsgrad)] := by
  decide


/-- Witness for C4 (amended) at a concrete switching-disabled run. -/
theorem c4_optimizer_switch_witness :
    (train c4wcfg (fun _ => 1) 1 none 3).final.optimizer = .adam ∧
    ((train c4wcfg (fun _ => 1) 1 none 3).final.epochs.get ⟨0, by decide⟩).optimAfter =
      (if c4wcfg.switchOptimizers &&
          decide (10 * ((train c4wcfg (fun _ => 1) 1 none 3).final.epochs.get
            ⟨0, by decide⟩).sinceAtStart > c4wcfg.maxStepsWithoutImprovement)
        then Opt.amsgrad
        else ((train c4wcfg (fun _ => 1) 1 none 3).final.epochs.get
          ⟨0, by decide⟩).optimBefore) := by
  obtain ⟨hadam, hrule, -, -, -⟩ := c4_optimizer_switch c4wcfg (fun _ => 1) 1 none 3
  exact ⟨(hadam rfl).1, hrule _ (List.get_mem _ _ _)⟩

/-- Claim C5 (amended): with at least one batch per pass and enough fuel,
the loop stops at the first outer-pass boundary at which
`step >= max_steps` or `steps_since_improvement >=
max_steps_without_improvement`; on such a normal exit the SUCCESS sentinel
is written, while after a caught interrupt it is NOT (the claim as stated
asserts it is written in both cases); `scores.txt` is persisted on both
paths, and the interrupt never escapes `train`. -/
theorem c5_termination_and_success (cfg : TrainConfig) (a : ℕ → ℚ) (es : ℕ) (intr : Option ℕ)
    (fuel : ℕ) (hes : 1 ≤ es) (hfuel : cfg.maxSteps ≤ fuel) :
    (train cfg a es intr fuel).scoresWritten = true ∧
    ((train cfg a es intr fuel).final.interrupted = true →
      (train cfg a es intr fuel).successWritten = false) ∧
    ((train cfg a es intr fuel).final.interrupted = false →
      (train cfg a es intr fuel).successWritten = true ∧
      (cfg.maxSteps ≤ (train cfg a es intr fuel).final.step ∨
        cfg.maxStepsWithoutImprovement ≤ (train cfg a es intr fuel).final.sinceBest)) := by
  have hsw : (train cfg a es intr fuel).successWritten =
      (!(runLoop cfg a intr es fuel initTrainState).interrupted &&
        !guardB cfg (runLoop cfg a intr es fuel initTrainState)) := rfl
  refine ⟨rfl, ?_, ?_⟩
  · intro hint
    have hint' : (runLoop cfg a intr es fuel initTrainState).interrupted = true := hint
    rw [hsw, hint']
    rfl
  · intro hni
    have hni' : (runLoop cfg a intr es fuel initTrainState).interrupted = false := hni
    have hg := runLoop_exit hes fuel initTrainState (by
      show cfg.maxSteps ≤ initTrainState.step + fuel
      show cfg.maxSteps ≤ 0 + fuel
      omega) hni'
    constructor
    · rw [hsw, hni', hg]
      rfl
    · unfold guardB at hg
      simp only [Bool.and_eq_false_iff, decide_eq_false_iff_not, Nat.not_lt] at hg
      rcases hg with hg | hg
      · exact Or.inl hg
      · exact Or.inr hg


/-- Claim C5 as stated is refuted: a run interrupted mid-loop is caught
(no exception escapes) and persists `scores.txt`, but the SUCCESS sentinel
is not written. -/
theorem c5_termination_and_success_counterexample :
    (train c5cfg (fun _ => 1) 4 (some 2) 10).final.interrupted = true ∧
    (train c5cfg (fun _ => 1) 4 (some 2) 10).successWritten = false ∧
    (train c5cfg (fun _ => 1) 4 (some 2) 10).scoresWritten = true := by
  decide

/-- Witness for C5 (amended) at a concrete uninterrupted run. -/
theorem c5_termination_and_success_witness :
    (train c5cfg (fun _ => 1) 4 none 10).scoresWritten = true ∧
    (train c5cfg (fun _ => 1) 4 none 10).successWritten = true := by
  obtain ⟨hsc, -, hok⟩ :=
    c5_termination_and_success c5cfg (fun _ => 1) 4 none 10 (by decide) (by decide)
  exact ⟨hsc, (hok (by decide)).1⟩

/-! ## Claims C8 and C10 -/

theorem runFileBatches_cons_ok {saveDir : Path} {st : PFState} {i : ℕ} {is : List ℕ}
    {evs : List PEvent} {st2 : PFState} (h : parseFileStep saveDir st i = (evs, .ok st2)) :
    (runFileBatches saveDir st (i :: is)).1 = evs ++ (runFileBatches saveDir st2 is).1 := by
  conv_lhs => unfold runFileBatches
  rw [h]

theorem parseFile_events (saveDir p : Path) (n : ℕ) (odir ofname : Option Path) :
    (parseFile saveDir p n odir ofname).1 =
      (runFileBatches saveDir ⟨p, odir, ofname⟩ (List.range n)).1 := by
  unfold parseFile
  cases hr : runFileBatches saveDir ⟨p, odir, ofname⟩ (List.range n) with
  | mk evs r =>
    cases r with
    | error e => rfl
    | ok s => rfl

/-- Claim C8 is refuted by the code (indentation slip in `parse_file`,
lines 302-312): on the single-file inference path the output location is
recomputed and the cached predictions are serialized INSIDE the per-batch
loop.  With an explicit output directory and two batches the output file
is opened and written once per batch — the first write happens before the
second batch is processed, and the second write joins the output path onto
itself; with default options (no overrides) the first batch already fails
with a TypeError, because `output_filename` is still None at the
`os.path.join` on line 310 (the line-305 `elif` was skipped).  By
contrast `parse_files` (the multi-file path, lines 324-340) serializes
each file exactly once, after all its batches, at
`<save_dir>/parsed/<input_dir>/<filename>` — matching the claim. -/
theorem c8_parse_file_serializes_per_batch :
    parseFile ["save"] ["dir", "f"] 2 (some ["out"]) none =
      ([.cache 0 0, .makedirs ["out"], .write ["out", "f"] 0,
        .cache 0 1, .makedirs ["out"], .write ["out", "out", "f"] 0], none) ∧
    parseFile ["save"] ["dir", "f"] 1 none none =
      ([.cache 0 0, .makedirs ["save", "parsed", "dir"]], some .typeError) ∧
    parseFiles ["save"] [(["dir", "f"], 2)] none =
      ([.cache 0 0, .cache 0 1, .makedirs ["save", "parsed", "dir"],
        .write ["save", "parsed", "dir", "f"] 0], none) :=
  ⟨rfl, rfl, rfl⟩

/-- Claim C10: on the multi-file inference path, a non-None output
directory means `file_output_dir` is never assigned (lines 334-336), so
processing the first file caches its batches and then aborts with an
UnboundLocalError before any directory creation or output write; `parse`
reaches that path exactly for >1 input files without an output filename;
and on the single-file path the output-directory override does take
effect: the file's predictions are written into the given directory. -/
theorem c10_parse_files_unbound_local (saveDir d : Path) (f : Path × ℕ)
    (fs : List (Path × ℕ)) :
    (parseFiles saveDir (f :: fs) (some d) =
      ((List.range f.2).map (PEvent.cache 0), some .unboundLocalError)) ∧
    (fs ≠ [] →
      parse saveDir (f :: fs) (some d) none =
        ([.datasetInit ((f :: fs).map (·.1)), .restore] ++
          (List.range f.2).map (PEvent.cache 0), some .unboundLocalError)) ∧
    (∀ p : Path, ∀ n : ℕ, 0 < n →
      PEvent.write (d ++ [(osSplit p).2]) 0 ∈ (parseFile saveDir p n (some d) none).1) := by
  refine ⟨rfl, ?_, ?_⟩
  · intro hfs
    cases fs with
    | nil => exact absurd rfl hfs
    | cons g gs => rfl
  · intro p n hn
    obtain ⟨m, rfl⟩ : ∃ m, n = m + 1 := ⟨n - 1, by omega⟩
    have hstep : parseFileStep saveDir ⟨p, some d, none⟩ 0 =
        ([.cache 0 0, .makedirs d, .write (d ++ [(osSplit p).2]) 0],
          .ok ⟨[(osSplit p).2], some d, some (d ++ [(osSplit p).2])⟩) := rfl
    rw [parseFile_events, List.range_succ_eq_map, runFileBatches_cons_ok hstep]
    exact List.mem_append_left _ (by simp)

/-- Witness for C10 at a concrete two-file call with an explicit output
directory, plus the single-file call that honours the override. -/
theorem c10_parse_files_unbound_local_witness :
    (parseFiles ["save"] [(["a"], 2), (["b"], 1)] (some ["out"]) =
      ([.cache 0 0, .cache 0 1], some .unboundLocalError)) ∧
    PEvent.write ["out", "f"] 0 ∈ (parseFile ["save"] ["dir", "f"] 1 (some ["out"]) none).1 := by
  obtain ⟨h1, -, h3⟩ :=
    c10_parse_files_unbound_local ["save"] ["out"] (["a"], 2) [(["b"], 1)]
  exact ⟨h1, h3 ["dir", "f"] 1 (by decide)⟩

end ParserV3
